import Mathlib

/-! `SharedPtr<T>` (src/shared_ptr.h): a sequential model of the reference-counting protocol

The C++ class keeps two raw pointers per handle, `ptr_` (the pointee) and `ref_count_`
(a heap-allocated `std::atomic<size_t>`).  The embedding below makes the memory the
class works on explicit:

* a pointer is an `Option Nat`: `none` is `nullptr`, `some a` is the object with identity `a`;
* the `SharedPtr` objects live in a table indexed by handle identity; a destroyed
  handle leaves the entry `none` behind;
* the control blocks live in a table indexed by block identity; `new` takes the next
  unused identity, `delete` leaves the entry `none` behind;
* every executed `delete` is appended to a trace, pointee deletions included.

An access to a destroyed handle or to a control block that is not allocated is undefined
behaviour in C++; the operations return `none` there.  Memory orders are not part of this
sequential model.

The pointee type `T` is a template parameter, and `delete ptr_` runs its destructor.  The
operations of the namespace `SharedPtr` are those of a pointee type whose destructor
touches no handle.  The namespace `Nested` gives the operations for a pointee type with
`SharedPtr` data members, which its destructor destroys; `step_flat` shows that the two
agree when no pointee has such members.
-/

namespace Cpp11Ninja

/-- Number of values of `size_t`; the counter arithmetic wraps at this modulus. -/
def sizeModulus : Nat := 2 ^ 64

/-- The two data members of `SharedPtr<T>`. -/
structure SharedPtr where
  ptr_ : Option Nat
  ref_count_ : Option Nat
deriving DecidableEq

/-- Executions of `delete`, in the order they happen. -/
inductive Event where
  | deletePointee (p : Nat)
  | deleteCounter (c : Nat)
deriving DecidableEq

/-- Memory the class operates on: the handle objects, the control blocks and the trace of
`delete` executions. -/
structure Store where
  handles : List (Option SharedPtr)
  counters : List (Option Nat)
  trace : List Event
deriving DecidableEq

namespace Store

/-- No handle, no control block, nothing deleted. -/
def empty : Store := ⟨[], [], []⟩

/-- The live handle with identity `i`, if there is one. -/
def handle (s : Store) (i : Nat) : Option SharedPtr := (s.handles[i]?).join

/-- The value of the allocated control block `c`, if it is allocated. -/
def counter (s : Store) (c : Nat) : Option Nat := (s.counters[c]?).join

/-- Overwrites the data members of handle `i`. -/
def setHandle (s : Store) (i : Nat) (h : SharedPtr) : Store :=
  { s with handles := s.handles.set i (some h) }

/-- Adds a handle object; its identity is the previous length of the table. -/
def pushHandle (s : Store) (h : SharedPtr) : Store :=
  { s with handles := s.handles ++ [some h] }

/-- The expression `new std::atomic<size_t>(v)`: returns the new block and the store. -/
def newCounter (s : Store) (v : Nat) : Nat × Store :=
  (s.counters.length, { s with counters := s.counters ++ [some (v % sizeModulus)] })

/-- The call `c->fetch_add(1, ...)`; the returned old value is unused in the source. -/
def fetch_add (s : Store) (c : Nat) : Option Store :=
  match s.counter c with
  | none => none
  | some n => some { s with counters := s.counters.set c (some ((n + 1) % sizeModulus)) }

/-- The call `c->fetch_sub(1, ...)`: returns the value before the decrement. -/
def fetch_sub (s : Store) (c : Nat) : Option (Nat × Store) :=
  match s.counter c with
  | none => none
  | some n =>
    some (n, { s with counters := s.counters.set c (some ((n + sizeModulus - 1) % sizeModulus)) })

/-- The statement `delete ptr_`; deleting a null pointer does nothing. -/
def deletePointee (s : Store) (p : Option Nat) : Store :=
  match p with
  | none => s
  | some a => { s with trace := s.trace ++ [Event.deletePointee a] }

/-- The statement `delete ref_count_` for a non-null control block `c`. -/
def deleteCounter (s : Store) (c : Nat) : Store :=
  { s with counters := s.counters.set c none, trace := s.trace ++ [Event.deleteCounter c] }

end Store

namespace SharedPtr

/-- The private member `release()` of a handle with data members `h`. -/
def release (h : SharedPtr) (s : Store) : Option Store :=
  match h.ref_count_ with
  | none => some s
  | some c =>
    match s.fetch_sub c with
    | none => none
    | some (pre, s1) =>
      if pre = 1 then some ((s1.deletePointee h.ptr_).deleteCounter c) else some s1

/-- The constructor `SharedPtr(T* ptr = nullptr)`; the new handle is `s.handles.length`. -/
def construct (s : Store) (ptr : Option Nat) : Store :=
  match ptr with
  | none => s.pushHandle ⟨none, none⟩
  | some p =>
    let a := s.newCounter 1
    a.2.pushHandle ⟨some p, some a.1⟩

/-- The copy constructor `SharedPtr(const SharedPtr& other)`; the new handle is
`s.handles.length`. -/
def copyConstruct (s : Store) (other : Nat) : Option Store :=
  match s.handle other with
  | none => none
  | some o =>
    let s1 := s.pushHandle ⟨o.ptr_, o.ref_count_⟩
    match o.ref_count_ with
    | none => some s1
    | some c => s1.fetch_add c

/-- The copy assignment `operator=(const SharedPtr& other)` on handle `this`; the members
of `other` are read after `release()`, as in the source.  Here `release()` destroys no
handle; `Nested.assign` is the operation for pointees that hold handles. -/
def assign (s : Store) (this other : Nat) : Option Store :=
  match s.handle this, s.handle other with
  | some t, some _ =>
    if this ≠ other then
      match t.release s with
      | none => none
      | some s1 =>
        match s1.handle other with
        | none => none
        | some o =>
          let s2 := s1.setHandle this ⟨o.ptr_, o.ref_count_⟩
          match o.ref_count_ with
          | none => some s2
          | some c => s2.fetch_add c
    else some s
  | _, _ => none

/-- The destructor `~SharedPtr()`; afterwards the handle is gone. -/
def destroy (s : Store) (this : Nat) : Option Store :=
  match s.handle this with
  | none => none
  | some t =>
    match t.release s with
    | none => none
    | some s1 => some { s1 with handles := s1.handles.set this none }

/-- The member `use_count()`. -/
def use_count (s : Store) (this : Nat) : Option Nat :=
  match s.handle this with
  | none => none
  | some t =>
    match t.ref_count_ with
    | none => some 0
    | some c => s.counter c

/-- The member `reset()`. -/
def reset (s : Store) (this : Nat) : Option Store :=
  match s.handle this with
  | none => none
  | some t =>
    match t.release s with
    | none => none
    | some s1 => some (s1.setHandle this ⟨none, none⟩)

/-- The member `reset(T* ptr)`. -/
def resetPtr (s : Store) (this : Nat) (ptr : Option Nat) : Option Store :=
  match s.handle this with
  | none => none
  | some t =>
    if ptr ≠ t.ptr_ then
      match t.release s with
      | none => none
      | some s1 =>
        match ptr with
        | none => some (s1.setHandle this ⟨none, none⟩)
        | some p =>
          let a := s1.newCounter 1
          some (a.2.setHandle this ⟨some p, some a.1⟩)
    else some s

end SharedPtr

/-- The public operations a client can apply to the handles of a store. -/
inductive Op where
  | construct (ptr : Option Nat)
  | copyConstruct (other : Nat)
  | assign (this other : Nat)
  | reset (this : Nat)
  | resetPtr (this : Nat) (ptr : Option Nat)
  | destroy (this : Nat)
deriving DecidableEq

/-- One operation. -/
def step (s : Store) : Op → Option Store
  | Op.construct ptr => some (SharedPtr.construct s ptr)
  | Op.copyConstruct other => SharedPtr.copyConstruct s other
  | Op.assign this other => SharedPtr.assign s this other
  | Op.reset this => SharedPtr.reset s this
  | Op.resetPtr this ptr => SharedPtr.resetPtr s this ptr
  | Op.destroy this => SharedPtr.destroy s this

/-- A finite sequence of operations, left to right. -/
def run (s : Store) : List Op → Option Store
  | [] => some s
  | op :: ops =>
    match step s op with
    | none => none
    | some s1 => run s1 ops

/-- Whether a handle-table entry is a live handle whose `ref_count_` is the block `c`. -/
def refersTo (c : Nat) (e : Option SharedPtr) : Bool :=
  match e with
  | none => false
  | some h => h.ref_count_ == some c

/-- Whether a handle-table entry is a live handle whose `ptr_` is the pointee `p`. -/
def pointsTo (p : Nat) (e : Option SharedPtr) : Bool :=
  match e with
  | none => false
  | some h => h.ptr_ == some p

/-- Number of live handles whose `ref_count_` refers to the control block `c`. -/
def owners (s : Store) (c : Nat) : Nat := s.handles.countP (refersTo c)

/-- Number of times `delete` was executed on the pointee `p`. -/
def deletions (s : Store) (p : Nat) : Nat := s.trace.count (Event.deletePointee p)


/-! ## Well-formed stores -/

/-- Well-formed store: what holds between the handles and the control blocks whenever no
member function is in progress. -/
structure Inv (s : Store) : Prop where
  paired : ∀ i h, s.handle i = some h → (h.ptr_ = none ↔ h.ref_count_ = none)
  valid : ∀ i h c, s.handle i = some h → h.ref_count_ = some c → ∃ n, s.counter c = some n
  count : ∀ c n, s.counter c = some n → n = owners s c
  pos : ∀ c n, s.counter c = some n → 1 ≤ n
  lt : ∀ c n, s.counter c = some n → n < sizeModulus

/-- The store in the middle of a member function of handle `i`, right after its
`release()`: the data members `t` of `i` are stale and no longer counted. -/
structure Released (s : Store) (i : Nat) (t : SharedPtr) : Prop where
  live : s.handle i = some t
  stale : ∀ c, t.ref_count_ = some c → c < s.counters.length
  paired : ∀ j h, j ≠ i → s.handle j = some h → (h.ptr_ = none ↔ h.ref_count_ = none)
  valid : ∀ j h c, j ≠ i → s.handle j = some h → h.ref_count_ = some c →
    ∃ n, s.counter c = some n
  count : ∀ c n, s.counter c = some n →
    n + (if t.ref_count_ = some c then 1 else 0) = owners s c
  pos : ∀ c n, s.counter c = some n → 1 ≤ n
  lt : ∀ c n, s.counter c = some n → n < sizeModulus

/-! ## One pointee handed over once -/

/-- Operations of a client that shares one pointee `P0` in the store `s`: every operation
except a new construction from a raw pointer, and except `reset(P0)` on a handle whose
pointee is not `P0` already. -/
def sharing (P0 : Nat) (s : Store) : Op → Bool
  | Op.construct _ => false
  | Op.resetPtr this ptr =>
    ptr != some P0 ||
      (match s.handle this with
       | some t => t.ptr_ == ptr
       | none => false)
  | _ => true

/-- Every operation of the sequence is a sharing operation in the store it is applied to. -/
def sharingRun (P0 : Nat) : Store → List Op → Bool
  | _, [] => true
  | s, op :: ops =>
    sharing P0 s op &&
      (match step s op with
       | some s1 => sharingRun P0 s1 ops
       | none => true)

/-- Bookkeeping of the control block `0`, the one allocated for the pointee `P0`: `P0` has
been deleted once if the block is freed and not at all otherwise. -/
structure BlockZero (P0 : Nat) (s : Store) : Prop where
  alloc : 0 < s.counters.length
  once : deletions s P0 = if s.counter 0 = none then 1 else 0

/-- In a store where `P0` was handed over once, the handles on `P0` are the handles on
the control block `0`. -/
structure Lineage (P0 : Nat) (s : Store) : Prop where
  owns : ∀ i h, s.handle i = some h → (h.ptr_ = some P0 ↔ h.ref_count_ = some 0)
  block : BlockZero P0 s

/-! ## Outcomes of the operations in a well-formed store -/

/-- The three outcomes of `release()` on a handle with members `t`: nothing to release, a
decrement that leaves other owners, and the last decrement followed by the two deletes. -/
inductive Releases (s : Store) (t : SharedPtr) : Store → Prop where
  | empty (hc : t.ref_count_ = none) : Releases s t s
  | shared (c n : Nat) (hc : t.ref_count_ = some c) (hn : s.counter c = some n)
      (h2 : 2 ≤ n) :
      Releases s t ⟨s.handles, s.counters.set c (some (n - 1)), s.trace⟩
  | last (p c : Nat) (hp : t.ptr_ = some p) (hc : t.ref_count_ = some c)
      (hn : s.counter c = some 1) :
      Releases s t ⟨s.handles, s.counters.set c none,
        s.trace ++ [Event.deletePointee p, Event.deleteCounter c]⟩

/-- What a successful operation does to a well-formed store, case by case. -/
inductive Effect (s : Store) : Op → Store → Prop where
  | constructNull :
      Effect s (Op.construct none) ⟨s.handles ++ [some ⟨none, none⟩], s.counters, s.trace⟩
  | constructNew (p : Nat) :
      Effect s (Op.construct (some p))
        ⟨s.handles ++ [some ⟨some p, some s.counters.length⟩], s.counters ++ [some 1],
          s.trace⟩
  | copyNull (i : Nat) (o : SharedPtr) (hi : s.handle i = some o)
      (hc : o.ref_count_ = none) :
      Effect s (Op.copyConstruct i) ⟨s.handles ++ [some o], s.counters, s.trace⟩
  | copyShared (i : Nat) (o : SharedPtr) (c m : Nat) (hi : s.handle i = some o)
      (hc : o.ref_count_ = some c) (hm : s.counter c = some m)
      (hlt : m + 1 < sizeModulus) :
      Effect s (Op.copyConstruct i)
        ⟨s.handles ++ [some o], s.counters.set c (some (m + 1)), s.trace⟩
  | assignSelf (a : Nat) (t : SharedPtr) (ha : s.handle a = some t) :
      Effect s (Op.assign a a) s
  | assignNull (a b : Nat) (t o : SharedPtr) (s1 : Store) (hab : a ≠ b)
      (ha : s.handle a = some t) (hb : s.handle b = some o) (hr : Releases s t s1)
      (hrd : Released s1 a t) (hc : o.ref_count_ = none) :
      Effect s (Op.assign a b) ⟨s1.handles.set a (some o), s1.counters, s1.trace⟩
  | assignShared (a b : Nat) (t o : SharedPtr) (s1 : Store) (c m : Nat) (hab : a ≠ b)
      (ha : s.handle a = some t) (hb : s.handle b = some o) (hr : Releases s t s1)
      (hrd : Released s1 a t) (hc : o.ref_count_ = some c) (hm : s1.counter c = some m)
      (hlt : m + 1 < sizeModulus) :
      Effect s (Op.assign a b)
        ⟨s1.handles.set a (some o), s1.counters.set c (some (m + 1)), s1.trace⟩
  | reset (i : Nat) (t : SharedPtr) (s1 : Store) (hi : s.handle i = some t)
      (hr : Releases s t s1) (hrd : Released s1 i t) :
      Effect s (Op.reset i) ⟨s1.handles.set i (some ⟨none, none⟩), s1.counters, s1.trace⟩
  | resetSame (i : Nat) (t : SharedPtr) (hi : s.handle i = some t) :
      Effect s (Op.resetPtr i t.ptr_) s
  | resetNull (i : Nat) (t : SharedPtr) (s1 : Store) (hi : s.handle i = some t)
      (hne : none ≠ t.ptr_) (hr : Releases s t s1) (hrd : Released s1 i t) :
      Effect s (Op.resetPtr i none)
        ⟨s1.handles.set i (some ⟨none, none⟩), s1.counters, s1.trace⟩
  | resetNew (i : Nat) (t : SharedPtr) (s1 : Store) (p : Nat) (hi : s.handle i = some t)
      (hne : some p ≠ t.ptr_) (hr : Releases s t s1) (hrd : Released s1 i t) :
      Effect s (Op.resetPtr i (some p))
        ⟨s1.handles.set i (some ⟨some p, some s1.counters.length⟩),
          s1.counters ++ [some 1], s1.trace⟩
  | destroy (i : Nat) (t : SharedPtr) (s1 : Store) (hi : s.handle i = some t)
      (hr : Releases s t s1) (hrd : Released s1 i t) :
      Effect s (Op.destroy i) ⟨s1.handles.set i none, s1.counters, s1.trace⟩

/-! ## The history of the control blocks -/

/-- The deletes executed for the freed control blocks `order`, oldest first, where `g c` is
the pointee the control block `c` was allocated for. -/
def deletesOf (g : Nat → Nat) : List Nat → List Event
  | [] => []
  | c :: cs => Event.deletePointee (g c) :: Event.deleteCounter c :: deletesOf g cs

/-- The store agrees with a history: `g` maps every control block to the pointee it was
allocated for and `order` lists the freed control blocks, oldest first. -/
structure History (s : Store) (g : Nat → Nat) (order : List Nat) : Prop where
  coh : ∀ i h c, s.handle i = some h → h.ref_count_ = some c → h.ptr_ = some (g c)
  tr : s.trace = deletesOf g order
  nodup : order.Nodup
  mem : ∀ c, c ∈ order ↔ (c < s.counters.length ∧ s.counter c = none)

/-- The non-null raw pointer an operation takes ownership of, if any: the argument of the
raw-pointer constructor, or of `reset(P)` when `P` is not the handle's own pointee. -/
def adopts (s : Store) : Op → Option Nat
  | Op.construct ptr => ptr
  | Op.resetPtr this ptr =>
    match s.handle this with
    | some t => if ptr ≠ t.ptr_ then ptr else none
    | none => none
  | _ => none

/-- The pointee map after an operation: an adopted pointer belongs to the next control
block. -/
def record (g : Nat → Nat) (s : Store) (op : Op) : Nat → Nat :=
  match adopts s op with
  | some p => fun c => if c = s.counters.length then p else g c
  | none => g

/-- Whether the pointee `p` is owned by a live handle or has been deleted already. -/
def owned (s : Store) (p : Nat) : Bool :=
  s.handles.any (pointsTo p) || decide (Event.deletePointee p ∈ s.trace)

/-- The operation adopts no raw pointer that is owned now or was owned earlier. -/
def freshOp (s : Store) (op : Op) : Bool :=
  match adopts s op with
  | some p => !(owned s p)
  | none => true

/-- Every operation of the sequence adopts only fresh raw pointers. -/
def freshRun : Store → List Op → Bool
  | _, [] => true
  | s, op :: ops =>
    freshOp s op &&
      (match step s op with
       | some s1 => freshRun s1 ops
       | none => true)

/-- The first `n` control blocks were allocated for pairwise different pointees. -/
def Distinct (g : Nat → Nat) (n : Nat) : Prop :=
  ∀ c1 c2, c1 < n → c2 < n → g c1 = g c2 → c1 = c2

/-! ## Access to the pointee, and the handle an operation works on -/

/-- The member `operator->()`: returns `ptr_`. -/
def SharedPtr.arrow (s : Store) (this : Nat) : Option (Option Nat) :=
  match s.handle this with
  | none => none
  | some t => some t.ptr_

/-- The member `operator*()`: `*ptr_`, the pointee.  Dereferencing a null pointer or a
pointee that has been deleted is undefined. -/
def SharedPtr.deref (s : Store) (this : Nat) : Option Nat :=
  match s.handle this with
  | none => none
  | some t =>
    match t.ptr_ with
    | none => none
    | some p => if Event.deletePointee p ∈ s.trace then none else some p

/-- The existing handle an operation is applied to: the source of a copy construction, the
target of the others. -/
def subject : Op → Option Nat
  | Op.construct _ => none
  | Op.copyConstruct other => some other
  | Op.assign this _ => some this
  | Op.reset this => some this
  | Op.resetPtr this _ => some this
  | Op.destroy this => some this

/-! ## Threads releasing one control block -/

/-- The atomic `fetch_sub(1)` steps of the threads `sched` on the control block `c`, in the
order in which they take effect; each thread is returned with the value it observed. -/
def fetchSubs (s : Store) (c : Nat) : List Nat → Option (List (Nat × Nat) × Store)
  | [] => some ([], s)
  | th :: rest =>
    match s.fetch_sub c with
    | none => none
    | some (pre, s1) =>
      match fetchSubs s1 c rest with
      | none => none
      | some (obs, s2) => some ((th, pre) :: obs, s2)

/-- The calls of `release()` by the owners `ts`, in the order of their decrements. -/
def releaseAll (s : Store) : List SharedPtr → Option Store
  | [] => some s
  | t :: ts =>
    match t.release s with
    | none => none
    | some s1 => releaseAll s1 ts

/-- The handle an operation copies from, if any. -/
def source : Op → Option Nat
  | Op.copyConstruct other => some other
  | Op.assign _ other => some other
  | _ => none

/-! ## Pointees that hold handles

The pointee type `T` is a template parameter.  Its destructor, run by `delete ptr_`, ends
the life of the `SharedPtr` data members of the pointee.  The operations above are those
of a pointee type without such members.  Below, `members p` lists the handles that are data
members of the pointee `p`, and `delete ptr_` destroys them before the pointee is freed. -/

namespace Nested

/-- The statement `delete ptr_`: the destructor of the pointee destroys its `SharedPtr`
members through `kill`, then the pointee is freed; deleting a null pointer does nothing. -/
def deleteWith (members : Nat → List Nat) (kill : Store → List Nat → Option Store)
    (s : Store) (p : Option Nat) : Option Store :=
  match p with
  | none => some s
  | some a =>
    match kill s (members a) with
    | none => none
    | some s1 => some { s1 with trace := s1.trace ++ [Event.deletePointee a] }

/-- The private member `release()` of the handle `this`; `delete ref_count_` reads the
member again after `delete ptr_` has returned. -/
def releaseWith (members : Nat → List Nat) (kill : Store → List Nat → Option Store)
    (s : Store) (this : Nat) : Option Store :=
  match s.handle this with
  | none => none
  | some h =>
    match h.ref_count_ with
    | none => some s
    | some c =>
      match s.fetch_sub c with
      | none => none
      | some (pre, s1) =>
        if pre = 1 then
          match deleteWith members kill s1 h.ptr_ with
          | none => none
          | some s2 =>
            match s2.handle this with
            | none => none
            | some h2 =>
              match h2.ref_count_ with
              | none => some s2
              | some c2 => some (s2.deleteCounter c2)
        else some s1

/-- The destructors `~SharedPtr()` of the listed handles, in order.  The first argument
bounds the number of nested destructions; a result does not depend on it
(`destroyAll_mono`). -/
def destroyAll (members : Nat → List Nat) : Nat → Store → List Nat → Option Store
  | _, s, [] => some s
  | 0, _, _ :: _ => none
  | fuel + 1, s, i :: rest =>
    match releaseWith members (destroyAll members fuel) s i with
    | none => none
    | some s1 => destroyAll members fuel { s1 with handles := s1.handles.set i none } rest

/-- The private member `release()`; every nested destruction ends one handle, so the
number of handle objects bounds the nesting. -/
def release (members : Nat → List Nat) (s : Store) (this : Nat) : Option Store :=
  releaseWith members (destroyAll members s.handles.length) s this

/-- The destructor `~SharedPtr()`; afterwards the handle is gone. -/
def destroy (members : Nat → List Nat) (s : Store) (this : Nat) : Option Store :=
  match release members s this with
  | none => none
  | some s1 => some { s1 with handles := s1.handles.set this none }

/-- The copy assignment `operator=(const SharedPtr& other)` on handle `this`: `release()`
first, then the members of `other` are read and the members of `this` written. -/
def assign (members : Nat → List Nat) (s : Store) (this other : Nat) : Option Store :=
  match s.handle this, s.handle other with
  | some _, some _ =>
    if this ≠ other then
      match release members s this with
      | none => none
      | some s1 =>
        match s1.handle this, s1.handle other with
        | some _, some o =>
          let s2 := s1.setHandle this ⟨o.ptr_, o.ref_count_⟩
          match o.ref_count_ with
          | none => some s2
          | some c => s2.fetch_add c
        | _, _ => none
    else some s
  | _, _ => none

/-- The member `reset()`. -/
def reset (members : Nat → List Nat) (s : Store) (this : Nat) : Option Store :=
  match release members s this with
  | none => none
  | some s1 =>
    match s1.handle this with
    | none => none
    | some _ => some (s1.setHandle this ⟨none, none⟩)

/-- The member `reset(T* ptr)`. -/
def resetPtr (members : Nat → List Nat) (s : Store) (this : Nat) (ptr : Option Nat) :
    Option Store :=
  match s.handle this with
  | none => none
  | some t =>
    if ptr ≠ t.ptr_ then
      match release members s this with
      | none => none
      | some s1 =>
        match s1.handle this with
        | none => none
        | some _ =>
          match ptr with
          | none => some (s1.setHandle this ⟨none, none⟩)
          | some p =>
            let a := s1.newCounter 1
            some (a.2.setHandle this ⟨some p, some a.1⟩)
    else some s

/-- One operation; the constructors do not release anything and are the ones above. -/
def step (members : Nat → List Nat) (s : Store) : Op → Option Store
  | Op.construct ptr => some (SharedPtr.construct s ptr)
  | Op.copyConstruct other => SharedPtr.copyConstruct s other
  | Op.assign this other => assign members s this other
  | Op.reset this => reset members s this
  | Op.resetPtr this ptr => resetPtr members s this ptr
  | Op.destroy this => destroy members s this

/-- A finite sequence of operations, left to right. -/
def run (members : Nat → List Nat) (s : Store) : List Op → Option Store
  | [] => some s
  | op :: ops =>
    match step members s op with
    | none => none
    | some s1 => run members s1 ops

/-- Every operation of the sequence adopts only fresh raw pointers. -/
def freshRun (members : Nat → List Nat) : Store → List Op → Bool
  | _, [] => true
  | s, op :: ops =>
    freshOp s op &&
      (match step members s op with
       | some s1 => freshRun members s1 ops
       | none => true)

/-- The layout of a singly linked list of two nodes: node 7 holds the handle 0 (its `next`),
node 8 holds the handle 2. -/
def chain (p : Nat) : List Nat :=
  if p = 7 then [0] else if p = 8 then [2] else []

/-- Building the list: `next` of node 7, `head` on node 7, `next` of node 8, a temporary on
node 8, `head->next = temporary`, end of the temporary. -/
def buildChain : List Op :=
  [Op.construct none, Op.construct (some 7), Op.construct none, Op.construct (some 8),
   Op.assign 0 3, Op.destroy 3]

end Nested

/-- What `release()` and the destructions it sets off may change between `s` and `s1`:
`evs` are the deletes executed, handles are only destroyed, a destroyed handle is one of
`L` or a member of a pointee deleted on the way, and a control block outside `B` that no
destroyed handle referred to keeps its counter and is not deleted. -/
structure Cascade (members : Nat → List Nat) (L B : Nat → Prop) (evs : List Event)
    (s s1 : Store) : Prop where
  len : s1.handles.length = s.handles.length
  tr : s1.trace = s.trace ++ evs
  fade : ∀ j, s1.handle j = s.handle j ∨ s1.handle j = none
  gone : ∀ j h, s.handle j = some h → s1.handle j = none →
    L j ∨ ∃ p, j ∈ members p ∧ Event.deletePointee p ∈ evs
  keep : ∀ c, ¬ B c →
    (∀ j h, s.handle j = some h → s1.handle j = none → h.ref_count_ ≠ some c) →
    s1.counter c = s.counter c ∧ Event.deleteCounter c ∉ evs

namespace Nested

/-- The store after `buildChain`: handle 1 (`head`) is the sole owner of node 7, whose
member handle 0 is the sole owner of node 8, whose member handle 2 is empty. -/
def listStore : Store :=
  ⟨[some ⟨some 8, some 1⟩, some ⟨some 7, some 0⟩, some ⟨none, none⟩, none],
    [some 1, some 1], []⟩

/-- The store `release()` of `head` leaves behind in `listStore`: node 7 is deleted, its
member handle 0 is destroyed with it, and so are node 8 and both control blocks. -/
def afterRelease : Store :=
  ⟨[none, some ⟨some 7, some 0⟩, none, none], [none, none],
    [Event.deletePointee 8, Event.deleteCounter 1,
     Event.deletePointee 7, Event.deleteCounter 0]⟩

/-- The store after the destruction of `head` in `listStore`. -/
def afterDestroy : Store :=
  ⟨[none, none, none, none], [none, none],
    [Event.deletePointee 8, Event.deleteCounter 1,
     Event.deletePointee 7, Event.deleteCounter 0]⟩

end Nested

/-! ## Reading the tables after a write -/

theorem handle_mk (hs : List (Option SharedPtr)) (cs : List (Option Nat)) (tr : List Event)
    (i : Nat) : (Store.mk hs cs tr).handle i = (hs[i]?).join := rfl

theorem counter_mk (hs : List (Option SharedPtr)) (cs : List (Option Nat)) (tr : List Event)
    (c : Nat) : (Store.mk hs cs tr).counter c = (cs[c]?).join := rfl

theorem handle_lt {s : Store} {i : Nat} {h : SharedPtr} (hi : s.handle i = some h) :
    i < s.handles.length := by
  unfold Store.handle at hi
  by_contra hlt
  rw [List.getElem?_eq_none (by omega)] at hi
  simp at hi

theorem counter_lt {s : Store} {c n : Nat} (hc : s.counter c = some n) :
    c < s.counters.length := by
  unfold Store.counter at hc
  by_contra hlt
  rw [List.getElem?_eq_none (by omega)] at hc
  simp at hc

theorem join_getElem?_set {α : Type} (l : List (Option α)) (i j : Nat) (v : Option α)
    (hi : i < l.length) :
    ((l.set i v)[j]?).join = if j = i then v else (l[j]?).join := by
  rw [List.getElem?_set]
  by_cases hji : j = i
  · subst hji; simp [hi]
  · have : ¬ i = j := fun h => hji h.symm
    simp [hji, this]

theorem join_getElem?_push {α : Type} (l : List (Option α)) (j : Nat) (v : Option α) :
    ((l ++ [v])[j]?).join = if j = l.length then v else (l[j]?).join := by
  rw [List.getElem?_append]
  by_cases hj : j < l.length
  · have : j ≠ l.length := by omega
    simp [hj, this]
  · by_cases hje : j = l.length
    · subst hje; simp
    · have : l.length ≤ j := by omega
      rw [if_neg hj, if_neg hje, List.getElem?_eq_none this]
      rw [List.getElem?_eq_none (by simp; omega)]

theorem countP_push {α : Type} (p : α → Bool) (l : List α) (v : α) :
    (l ++ [v]).countP p = l.countP p + (if p v then 1 else 0) := by
  simp [List.countP_append, List.countP_cons]

theorem countP_set_add {α : Type} (p : α → Bool) (l : List α) (i : Nat) (v : α)
    (hi : i < l.length) :
    (l.set i v).countP p + (if p l[i] then 1 else 0) = l.countP p + (if p v then 1 else 0) := by
  have h1 := List.countP_set p l i v hi
  have h2 : (if p l[i] = true then 1 else 0) ≤ l.countP p := by
    induction l generalizing i with
    | nil => simp at hi
    | cons x l ih =>
      cases i with
      | zero => simp [List.countP_cons]
      | succ k =>
        simp at hi
        have := ih k hi (List.countP_set p l k v hi)
        simp [List.countP_cons]
        omega
  omega

theorem getElem_of_handle {s : Store} {i : Nat} {h : SharedPtr} (hi : s.handle i = some h)
    (hlt : i < s.handles.length) : s.handles[i] = some h := by
  unfold Store.handle at hi
  rw [List.getElem?_eq_getElem hlt] at hi
  simpa using hi

/-! ## The three outcomes of `release()` -/

theorem release_empty (t : SharedPtr) (s : Store) (hc : t.ref_count_ = none) :
    t.release s = some s := by
  simp [SharedPtr.release, hc]

theorem release_last (t : SharedPtr) (s : Store) (c : Nat) (hc : t.ref_count_ = some c)
    (hn : s.counter c = some 1) :
    t.release s = some ⟨s.handles, s.counters.set c none,
      (s.deletePointee t.ptr_).trace ++ [Event.deleteCounter c]⟩ := by
  simp only [SharedPtr.release, hc, Store.fetch_sub, hn]
  cases hp : t.ptr_ <;> simp [Store.deletePointee, Store.deleteCounter]

theorem release_shared (t : SharedPtr) (s : Store) (c n : Nat) (hc : t.ref_count_ = some c)
    (hn : s.counter c = some n) (h1 : n ≠ 1) :
    t.release s = some ⟨s.handles,
      s.counters.set c (some ((n + sizeModulus - 1) % sizeModulus)), s.trace⟩ := by
  simp [SharedPtr.release, hc, Store.fetch_sub, hn, h1]

theorem owners_mk (hs : List (Option SharedPtr)) (cs : List (Option Nat)) (tr : List Event)
    (c : Nat) : owners (Store.mk hs cs tr) c = hs.countP (refersTo c) := rfl

theorem inv_empty : Inv Store.empty := by
  constructor <;> intros <;> simp_all [Store.empty, Store.handle, Store.counter]

theorem released_of_inv {s : Store} (hinv : Inv s) {i : Nat} {t : SharedPtr}
    (hi : s.handle i = some t) :
    ∃ s1, t.release s = some s1 ∧ Released s1 i t ∧ s1.handles = s.handles := by
  cases hc : t.ref_count_ with
  | none =>
    refine ⟨s, release_empty t s hc, ?_, rfl⟩
    exact ⟨hi, by simp [hc], fun j h _ => hinv.paired j h, fun j h c _ => hinv.valid j h c,
      fun c n hn => by simpa [hc] using hinv.count c n hn, hinv.pos, hinv.lt⟩
  | some c =>
    obtain ⟨n, hn⟩ := hinv.valid i t c hi hc
    have hclt := counter_lt hn
    have hown := hinv.count c n hn
    have hpos := hinv.pos c n hn
    have hlt := hinv.lt c n hn
    by_cases h1 : n = 1
    · subst h1
      refine ⟨_, release_last t s c hc hn, ?_, rfl⟩
      refine ⟨hi, by simpa [hc] using hclt, fun j h _ => hinv.paired j h, ?_, ?_, ?_, ?_⟩
      · intro j h c2 hji hj hc2
        obtain ⟨m, hm⟩ := hinv.valid j h c2 hj hc2
        refine ⟨m, ?_⟩
        rw [counter_mk, join_getElem?_set _ _ _ _ hclt]
        have hne : c2 ≠ c := by
          intro hcc
          subst hcc
          -- two distinct live handles refer to `c2`, yet its counter is 1
          have hil := handle_lt hi
          have hjl := handle_lt hj
          have e1 := countP_set_add (refersTo c2) s.handles i none hil
          have hjl2 : j < (s.handles.set i none).length := by simpa using hjl
          have e2 := countP_set_add (refersTo c2) (s.handles.set i none) j none hjl2
          have hji2 : ¬ i = j := fun h => hji h.symm
          rw [List.getElem_set_ne hji2, getElem_of_handle hj hjl] at e2
          rw [getElem_of_handle hi hil] at e1
          simp [refersTo, hc, hc2] at e1 e2
          unfold owners at hown
          omega
        simpa [hne] using hm
      · intro c2 n2 hn2
        rw [counter_mk, join_getElem?_set _ _ _ _ hclt] at hn2
        by_cases hcc : c2 = c
        · simp [hcc] at hn2
        · rw [if_neg hcc] at hn2
          have := hinv.count c2 n2 hn2
          have hne : ¬ c = c2 := fun h => hcc h.symm
          simpa [hc, hne, owners_mk] using this
      · intro c2 n2 hn2
        rw [counter_mk, join_getElem?_set _ _ _ _ hclt] at hn2
        by_cases hcc : c2 = c
        · simp [hcc] at hn2
        · rw [if_neg hcc] at hn2
          exact hinv.pos c2 n2 hn2
      · intro c2 n2 hn2
        rw [counter_mk, join_getElem?_set _ _ _ _ hclt] at hn2
        by_cases hcc : c2 = c
        · simp [hcc] at hn2
        · rw [if_neg hcc] at hn2
          exact hinv.lt c2 n2 hn2
    · refine ⟨_, release_shared t s c n hc hn h1, ?_, rfl⟩
      have hdec : (n + sizeModulus - 1) % sizeModulus = n - 1 := by
        have : n + sizeModulus - 1 = (n - 1) + sizeModulus := by omega
        rw [this, Nat.add_mod_right]
        exact Nat.mod_eq_of_lt (by omega)
      rw [hdec]
      refine ⟨hi, by simpa [hc] using hclt, fun j h _ => hinv.paired j h, ?_, ?_, ?_, ?_⟩
      · intro j h c2 _ hj hc2
        obtain ⟨m, hm⟩ := hinv.valid j h c2 hj hc2
        rw [counter_mk, join_getElem?_set _ _ _ _ hclt]
        by_cases hcc : c2 = c
        · exact ⟨n - 1, by simp [hcc]⟩
        · exact ⟨m, by simpa [hcc] using hm⟩
      · intro c2 n2 hn2
        rw [counter_mk, join_getElem?_set _ _ _ _ hclt] at hn2
        by_cases hcc : c2 = c
        · subst hcc
          simp at hn2
          simp [hc, owners_mk]
          unfold owners at hown
          omega
        · rw [if_neg hcc] at hn2
          have := hinv.count c2 n2 hn2
          have hne : ¬ c = c2 := fun h => hcc h.symm
          simpa [hc, hne, owners_mk] using this
      · intro c2 n2 hn2
        rw [counter_mk, join_getElem?_set _ _ _ _ hclt] at hn2
        by_cases hcc : c2 = c
        · simp [hcc] at hn2
          omega
        · rw [if_neg hcc] at hn2
          exact hinv.pos c2 n2 hn2
      · intro c2 n2 hn2
        rw [counter_mk, join_getElem?_set _ _ _ _ hclt] at hn2
        by_cases hcc : c2 = c
        · simp [hcc] at hn2
          omega
        · rw [if_neg hcc] at hn2
          exact hinv.lt c2 n2 hn2

/-! ## Completing a member function after `release()` -/

theorem released_owners_fresh {s : Store} {i : Nat} {t : SharedPtr} (hr : Released s i t) :
    owners s s.counters.length = 0 := by
  unfold owners
  rw [List.countP_eq_zero]
  intro e he
  obtain ⟨j, hj, rfl⟩ := List.getElem_of_mem he
  cases hej : s.handles[j] with
  | none => simp [refersTo]
  | some h =>
    have hh : s.handle j = some h := by
      unfold Store.handle
      rw [List.getElem?_eq_getElem hj, hej]
      rfl
    simp only [refersTo, beq_iff_eq, Bool.not_eq_true, beq_eq_false_iff_ne, ne_eq]
    intro hc
    by_cases hji : j = i
    · subst hji
      have : h = t := by
        have := hr.live
        rw [hh] at this
        exact Option.some.inj this
      subst this
      exact absurd (hr.stale _ hc) (by omega)
    · obtain ⟨n, hn⟩ := hr.valid j h _ hji hh hc
      exact absurd (counter_lt hn) (by omega)

theorem inv_of_released_drop {s : Store} {i : Nat} {t : SharedPtr} (hr : Released s i t)
    (e : Option SharedPtr) (he : ∀ h, e = some h → h.ptr_ = none ∧ h.ref_count_ = none) :
    Inv ⟨s.handles.set i e, s.counters, s.trace⟩ := by
  have hil := handle_lt hr.live
  have hget := getElem_of_handle hr.live hil
  constructor
  · intro j h hj
    rw [handle_mk, join_getElem?_set _ _ _ _ hil] at hj
    by_cases hji : j = i
    · rw [if_pos hji] at hj
      obtain ⟨h1, h2⟩ := he h hj
      simp [h1, h2]
    · rw [if_neg hji] at hj
      exact hr.paired j h hji hj
  · intro j h c hj hc
    rw [handle_mk, join_getElem?_set _ _ _ _ hil] at hj
    by_cases hji : j = i
    · rw [if_pos hji] at hj
      obtain ⟨_, h2⟩ := he h hj
      rw [h2] at hc
      cases hc
    · rw [if_neg hji] at hj
      exact hr.valid j h c hji hj hc
  · intro c n hn
    have h1 := hr.count c n hn
    have h2 := countP_set_add (refersTo c) s.handles i e hil
    rw [hget] at h2
    have h3 : refersTo c e = false := by
      cases e with
      | none => rfl
      | some h =>
        obtain ⟨_, h2⟩ := he h rfl
        simp [refersTo, h2]
    rw [owners_mk]
    unfold owners at h1
    rw [h3] at h2
    by_cases htc : t.ref_count_ = some c <;> simp [refersTo, htc] at h1 h2 <;> omega
  · exact hr.pos
  · exact hr.lt

theorem one_mod_sizeModulus : 1 % sizeModulus = 1 := by
  norm_num [sizeModulus]

theorem inv_of_released_fresh {s : Store} {i : Nat} {t : SharedPtr} (hr : Released s i t)
    (p : Nat) :
    Inv ⟨s.handles.set i (some ⟨some p, some s.counters.length⟩),
      s.counters ++ [some (1 % sizeModulus)], s.trace⟩ := by
  have hil := handle_lt hr.live
  have hget := getElem_of_handle hr.live hil
  have hfresh := released_owners_fresh hr
  rw [one_mod_sizeModulus]
  constructor
  · intro j h hj
    rw [handle_mk, join_getElem?_set _ _ _ _ hil] at hj
    by_cases hji : j = i
    · rw [if_pos hji] at hj
      cases hj
      simp
    · rw [if_neg hji] at hj
      exact hr.paired j h hji hj
  · intro j h c hj hc
    rw [handle_mk, join_getElem?_set _ _ _ _ hil] at hj
    rw [counter_mk, join_getElem?_push]
    by_cases hji : j = i
    · rw [if_pos hji] at hj
      cases hj
      simp only [Option.some.injEq] at hc
      exact ⟨1, by simp [hc.symm]⟩
    · rw [if_neg hji] at hj
      obtain ⟨n, hn⟩ := hr.valid j h c hji hj hc
      have := counter_lt hn
      have hne : c ≠ s.counters.length := by omega
      exact ⟨n, by simpa [hne] using hn⟩
  · intro c n hn
    rw [counter_mk, join_getElem?_push] at hn
    have h2 := countP_set_add (refersTo c) s.handles i
      (some ⟨some p, some s.counters.length⟩) hil
    rw [hget] at h2
    rw [owners_mk]
    by_cases hcl : c = s.counters.length
    · subst hcl
      simp at hn
      unfold owners at hfresh
      have hst : t.ref_count_ ≠ some s.counters.length := by
        intro hh
        exact absurd (hr.stale _ hh) (by omega)
      simp [refersTo, hst, hfresh] at h2
      omega
    · rw [if_neg hcl] at hn
      have h1 := hr.count c n hn
      unfold owners at h1
      have hne : ¬ s.counters.length = c := fun h => hcl h.symm
      by_cases htc : t.ref_count_ = some c <;> simp [refersTo, htc, hne] at h1 h2 <;> omega
  · intro c n hn
    rw [counter_mk, join_getElem?_push] at hn
    by_cases hcl : c = s.counters.length
    · simp [hcl] at hn
      omega
    · rw [if_neg hcl] at hn
      exact hr.pos c n hn
  · intro c n hn
    rw [counter_mk, join_getElem?_push] at hn
    by_cases hcl : c = s.counters.length
    · simp [hcl] at hn
      rw [← hn]
      norm_num [sizeModulus]
    · rw [if_neg hcl] at hn
      exact hr.lt c n hn

theorem inv_of_released_adopt {s : Store} {i b : Nat} {t o : SharedPtr} (hr : Released s i t)
    (hbi : b ≠ i) (hb : s.handle b = some o) (hlen : s.handles.length < sizeModulus)
    (c : Nat) (hoc : o.ref_count_ = some c) :
    ∃ m, s.counter c = some m ∧ m + 1 < sizeModulus ∧
      Inv ⟨s.handles.set i (some o), s.counters.set c (some (m + 1)), s.trace⟩ := by
  have hil := handle_lt hr.live
  have hget := getElem_of_handle hr.live hil
  obtain ⟨m, hm⟩ := hr.valid b o c hbi hb hoc
  have hclt := counter_lt hm
  have hcount := hr.count c m hm
  have hset := countP_set_add (refersTo c) s.handles i (some o) hil
  rw [hget] at hset
  have hle : (s.handles.set i (some o)).countP (refersTo c) ≤ s.handles.length := by
    have := List.countP_le_length (refersTo c) (l := s.handles.set i (some o))
    simpa using this
  have hm1 : (s.handles.set i (some o)).countP (refersTo c) = m + 1 := by
    unfold owners at hcount
    by_cases htc : t.ref_count_ = some c <;> simp [refersTo, htc, hoc] at hcount hset <;> omega
  refine ⟨m, hm, by omega, ?_⟩
  constructor
  · intro j h hj
    rw [handle_mk, join_getElem?_set _ _ _ _ hil] at hj
    by_cases hji : j = i
    · rw [if_pos hji] at hj
      cases hj
      exact hr.paired b _ hbi hb
    · rw [if_neg hji] at hj
      exact hr.paired j h hji hj
  · intro j h c2 hj hc2
    rw [handle_mk, join_getElem?_set _ _ _ _ hil] at hj
    rw [counter_mk, join_getElem?_set _ _ _ _ hclt]
    have hv : ∃ n, s.counter c2 = some n := by
      by_cases hji : j = i
      · rw [if_pos hji] at hj
        cases hj
        exact hr.valid b _ c2 hbi hb hc2
      · rw [if_neg hji] at hj
        exact hr.valid j h c2 hji hj hc2
    obtain ⟨n, hn⟩ := hv
    by_cases hcc : c2 = c
    · exact ⟨m + 1, by simp [hcc]⟩
    · exact ⟨n, by simpa [hcc] using hn⟩
  · intro c2 n hn
    rw [counter_mk, join_getElem?_set _ _ _ _ hclt] at hn
    rw [owners_mk]
    by_cases hcc : c2 = c
    · subst hcc
      simp at hn
      omega
    · rw [if_neg hcc] at hn
      have h1 := hr.count c2 n hn
      have h2 := countP_set_add (refersTo c2) s.handles i (some o) hil
      rw [hget] at h2
      unfold owners at h1
      have hne : ¬ c = c2 := fun h => hcc h.symm
      by_cases htc : t.ref_count_ = some c2 <;>
        simp [refersTo, htc, hoc, hne] at h1 h2 <;> omega
  · intro c2 n hn
    rw [counter_mk, join_getElem?_set _ _ _ _ hclt] at hn
    by_cases hcc : c2 = c
    · simp [hcc] at hn
      omega
    · rw [if_neg hcc] at hn
      exact hr.pos c2 n hn
  · intro c2 n hn
    rw [counter_mk, join_getElem?_set _ _ _ _ hclt] at hn
    by_cases hcc : c2 = c
    · simp [hcc] at hn
      omega
    · rw [if_neg hcc] at hn
      exact hr.lt c2 n hn

/-! ## Every operation preserves well-formedness -/

theorem inv_owners_fresh {s : Store} (hinv : Inv s) : owners s s.counters.length = 0 := by
  unfold owners
  rw [List.countP_eq_zero]
  intro e he
  obtain ⟨j, hj, rfl⟩ := List.getElem_of_mem he
  cases hej : s.handles[j] with
  | none => simp [refersTo]
  | some h =>
    have hh : s.handle j = some h := by
      unfold Store.handle
      rw [List.getElem?_eq_getElem hj, hej]
      rfl
    simp only [refersTo, beq_iff_eq, Bool.not_eq_true, beq_eq_false_iff_ne, ne_eq]
    intro hc
    obtain ⟨n, hn⟩ := hinv.valid j h _ hh hc
    exact absurd (counter_lt hn) (by omega)

theorem inv_push_empty {s : Store} (hinv : Inv s) :
    Inv ⟨s.handles ++ [some ⟨none, none⟩], s.counters, s.trace⟩ := by
  constructor
  · intro j h hj
    rw [handle_mk, join_getElem?_push] at hj
    by_cases hjl : j = s.handles.length
    · rw [if_pos hjl] at hj
      cases hj
      simp
    · rw [if_neg hjl] at hj
      exact hinv.paired j h hj
  · intro j h c hj hc
    rw [handle_mk, join_getElem?_push] at hj
    by_cases hjl : j = s.handles.length
    · rw [if_pos hjl] at hj
      cases hj
      cases hc
    · rw [if_neg hjl] at hj
      exact hinv.valid j h c hj hc
  · intro c n hn
    have := hinv.count c n hn
    rw [owners_mk, countP_push]
    simpa [refersTo] using this
  · exact hinv.pos
  · exact hinv.lt

theorem inv_push_fresh {s : Store} (hinv : Inv s) (p : Nat) :
    Inv ⟨s.handles ++ [some ⟨some p, some s.counters.length⟩],
      s.counters ++ [some (1 % sizeModulus)], s.trace⟩ := by
  have hfresh := inv_owners_fresh hinv
  rw [one_mod_sizeModulus]
  constructor
  · intro j h hj
    rw [handle_mk, join_getElem?_push] at hj
    by_cases hjl : j = s.handles.length
    · rw [if_pos hjl] at hj
      cases hj
      simp
    · rw [if_neg hjl] at hj
      exact hinv.paired j h hj
  · intro j h c hj hc
    rw [handle_mk, join_getElem?_push] at hj
    rw [counter_mk, join_getElem?_push]
    by_cases hjl : j = s.handles.length
    · rw [if_pos hjl] at hj
      cases hj
      simp only [Option.some.injEq] at hc
      exact ⟨1, by simp [hc.symm]⟩
    · rw [if_neg hjl] at hj
      obtain ⟨n, hn⟩ := hinv.valid j h c hj hc
      have := counter_lt hn
      have hne : c ≠ s.counters.length := by omega
      exact ⟨n, by simpa [hne] using hn⟩
  · intro c n hn
    rw [counter_mk, join_getElem?_push] at hn
    rw [owners_mk, countP_push]
    by_cases hcl : c = s.counters.length
    · subst hcl
      simp at hn
      unfold owners at hfresh
      simp [refersTo, hfresh, hn]
    · rw [if_neg hcl] at hn
      have h1 := hinv.count c n hn
      unfold owners at h1
      have hne : ¬ s.counters.length = c := fun h => hcl h.symm
      simp [refersTo, hne, h1]
  · intro c n hn
    rw [counter_mk, join_getElem?_push] at hn
    by_cases hcl : c = s.counters.length
    · simp [hcl] at hn
      omega
    · rw [if_neg hcl] at hn
      exact hinv.pos c n hn
  · intro c n hn
    rw [counter_mk, join_getElem?_push] at hn
    by_cases hcl : c = s.counters.length
    · simp [hcl] at hn
      rw [← hn]
      norm_num [sizeModulus]
    · rw [if_neg hcl] at hn
      exact hinv.lt c n hn

theorem inv_push_share {s : Store} (hinv : Inv s) {i : Nat} {o : SharedPtr}
    (hi : s.handle i = some o) (hlen : s.handles.length + 1 < sizeModulus)
    (c : Nat) (hoc : o.ref_count_ = some c) :
    ∃ m, s.counter c = some m ∧ m + 1 < sizeModulus ∧
      Inv ⟨s.handles ++ [some o], s.counters.set c (some (m + 1)), s.trace⟩ := by
  obtain ⟨m, hm⟩ := hinv.valid i o c hi hoc
  have hclt := counter_lt hm
  have hcount := hinv.count c m hm
  have hle : owners s c ≤ s.handles.length := List.countP_le_length (refersTo c)
  refine ⟨m, hm, by omega, ?_⟩
  constructor
  · intro j h hj
    rw [handle_mk, join_getElem?_push] at hj
    by_cases hjl : j = s.handles.length
    · rw [if_pos hjl] at hj
      cases hj
      exact hinv.paired i _ hi
    · rw [if_neg hjl] at hj
      exact hinv.paired j h hj
  · intro j h c2 hj hc2
    rw [handle_mk, join_getElem?_push] at hj
    rw [counter_mk, join_getElem?_set _ _ _ _ hclt]
    have hv : ∃ n, s.counter c2 = some n := by
      by_cases hjl : j = s.handles.length
      · rw [if_pos hjl] at hj
        cases hj
        exact hinv.valid i _ c2 hi hc2
      · rw [if_neg hjl] at hj
        exact hinv.valid j h c2 hj hc2
    obtain ⟨n, hn⟩ := hv
    by_cases hcc : c2 = c
    · exact ⟨m + 1, by simp [hcc]⟩
    · exact ⟨n, by simpa [hcc] using hn⟩
  · intro c2 n hn
    rw [counter_mk, join_getElem?_set _ _ _ _ hclt] at hn
    rw [owners_mk, countP_push]
    by_cases hcc : c2 = c
    · subst hcc
      simp at hn
      unfold owners at hcount
      simp [refersTo, hoc]
      omega
    · rw [if_neg hcc] at hn
      have h1 := hinv.count c2 n hn
      unfold owners at h1
      have hne : ¬ c = c2 := fun h => hcc h.symm
      simp [refersTo, hoc, hne, h1]
  · intro c2 n hn
    rw [counter_mk, join_getElem?_set _ _ _ _ hclt] at hn
    by_cases hcc : c2 = c
    · simp [hcc] at hn
      omega
    · rw [if_neg hcc] at hn
      exact hinv.pos c2 n hn
  · intro c2 n hn
    rw [counter_mk, join_getElem?_set _ _ _ _ hclt] at hn
    by_cases hcc : c2 = c
    · simp [hcc] at hn
      omega
    · rw [if_neg hcc] at hn
      exact hinv.lt c2 n hn

theorem release_handles {t : SharedPtr} {s s1 : Store} (h : t.release s = some s1) :
    s1.handles = s.handles := by
  unfold SharedPtr.release at h
  cases hc : t.ref_count_ with
  | none =>
    simp [hc] at h
    rw [← h]
  | some c =>
    cases hn : s.counter c with
    | none => simp [hc, Store.fetch_sub, hn] at h
    | some n =>
      by_cases h1 : n = 1
      · simp [hc, Store.fetch_sub, hn, h1] at h
        rw [← h]
        cases t.ptr_ <;> rfl
      · simp [hc, Store.fetch_sub, hn, h1] at h
        rw [← h]

theorem fetch_add_handles {s s1 : Store} {c : Nat} (h : s.fetch_add c = some s1) :
    s1.handles = s.handles := by
  unfold Store.fetch_add at h
  cases hn : s.counter c with
  | none => simp [hn] at h
  | some n =>
    simp [hn] at h
    rw [← h]

theorem step_length {s s1 : Store} {op : Op} (h : step s op = some s1) :
    s.handles.length ≤ s1.handles.length := by
  cases op with
  | construct ptr =>
    simp only [step, Option.some.injEq] at h
    rw [← h]
    cases ptr <;> simp [SharedPtr.construct, Store.pushHandle, Store.newCounter]
  | copyConstruct other =>
    simp only [step, SharedPtr.copyConstruct] at h
    cases ho : s.handle other with
    | none => simp [ho] at h
    | some o =>
      cases hc : o.ref_count_ with
      | none =>
        simp [ho, hc] at h
        rw [← h]
        simp [Store.pushHandle]
      | some c =>
        simp only [ho, hc] at h
        rw [fetch_add_handles h]
        simp [Store.pushHandle]
  | assign this other =>
    simp only [step, SharedPtr.assign] at h
    cases ht : s.handle this with
    | none => simp [ht] at h
    | some t =>
      cases ho : s.handle other with
      | none => simp [ht, ho] at h
      | some o =>
        by_cases hne : this = other
        · simp [ht, ho, hne] at h
          rw [← h]
        · cases hr : t.release s with
          | none => simp [ht, ho, hne, hr] at h
          | some s2 =>
            have hh := release_handles hr
            have ho2 : s2.handle other = some o := by
              unfold Store.handle
              rw [hh]
              exact ho
            cases hc : o.ref_count_ with
            | none =>
              simp [ht, ho, hne, hr, ho2, hc] at h
              rw [← h]
              simp [Store.setHandle, hh]
            | some c =>
              simp only [ht, ho, hne, hr, ho2, hc, ne_eq, not_false_eq_true, if_true] at h
              rw [fetch_add_handles h]
              simp [Store.setHandle, hh]
  | reset this =>
    simp only [step, SharedPtr.reset] at h
    cases ht : s.handle this with
    | none => simp [ht] at h
    | some t =>
      cases hr : t.release s with
      | none => simp [ht, hr] at h
      | some s2 =>
        simp [ht, hr] at h
        rw [← h]
        simp [Store.setHandle, release_handles hr]
  | resetPtr this ptr =>
    simp only [step, SharedPtr.resetPtr] at h
    cases ht : s.handle this with
    | none => simp [ht] at h
    | some t =>
      by_cases hne : ptr = t.ptr_
      · simp [ht, hne] at h
        rw [← h]
      · cases hr : t.release s with
        | none => simp [ht, hne, hr] at h
        | some s2 =>
          cases ptr with
          | none =>
            simp [ht, hne, hr] at h
            rw [← h]
            simp [Store.setHandle, release_handles hr]
          | some p =>
            simp [ht, hne, hr] at h
            rw [← h]
            simp [Store.setHandle, Store.newCounter, release_handles hr]
  | destroy this =>
    simp only [step, SharedPtr.destroy] at h
    cases ht : s.handle this with
    | none => simp [ht] at h
    | some t =>
      cases hr : t.release s with
      | none => simp [ht, hr] at h
      | some s2 =>
        simp [ht, hr] at h
        rw [← h]
        simp [release_handles hr]

theorem run_length {ops : List Op} {s s1 : Store} (h : run s ops = some s1) :
    s.handles.length ≤ s1.handles.length := by
  induction ops generalizing s with
  | nil =>
    simp only [run, Option.some.injEq] at h
    rw [h]
  | cons op ops ih =>
    simp only [run] at h
    cases hs : step s op with
    | none => simp [hs] at h
    | some s2 =>
      simp only [hs] at h
      exact Nat.le_trans (step_length hs) (ih h)

theorem copyConstruct_empty {s : Store} {i : Nat} {o : SharedPtr} (hi : s.handle i = some o)
    (hoc : o.ref_count_ = none) :
    SharedPtr.copyConstruct s i = some ⟨s.handles ++ [some o], s.counters, s.trace⟩ := by
  obtain ⟨p, r⟩ := o
  simp only at hoc
  subst hoc
  simp [SharedPtr.copyConstruct, hi, Store.pushHandle]

theorem copyConstruct_shared {s : Store} {i c m : Nat} {o : SharedPtr}
    (hi : s.handle i = some o) (hoc : o.ref_count_ = some c) (hm : s.counter c = some m) :
    SharedPtr.copyConstruct s i =
      some ⟨s.handles ++ [some o], s.counters.set c (some ((m + 1) % sizeModulus)), s.trace⟩ := by
  obtain ⟨p, r⟩ := o
  simp only at hoc
  subst hoc
  have hm2 : ∀ hs, (Store.mk hs s.counters s.trace).counter c = some m := fun _ => hm
  simp [SharedPtr.copyConstruct, hi, Store.fetch_add, hm2, Store.pushHandle]

theorem assign_empty {s s1 : Store} {a b : Nat} {t o : SharedPtr} (hab : a ≠ b)
    (ha : s.handle a = some t) (hb : s.handle b = some o) (hr : t.release s = some s1)
    (hoc : o.ref_count_ = none) :
    SharedPtr.assign s a b = some ⟨s1.handles.set a (some o), s1.counters, s1.trace⟩ := by
  have hb1 : s1.handle b = some o := by
    unfold Store.handle
    rw [release_handles hr]
    exact hb
  obtain ⟨p, r⟩ := o
  simp only at hoc
  subst hoc
  simp [SharedPtr.assign, ha, hb, hab, hr, hb1, Store.setHandle]

theorem assign_shared {s s1 : Store} {a b c m : Nat} {t o : SharedPtr} (hab : a ≠ b)
    (ha : s.handle a = some t) (hb : s.handle b = some o) (hr : t.release s = some s1)
    (hoc : o.ref_count_ = some c) (hm : s1.counter c = some m) :
    SharedPtr.assign s a b = some ⟨s1.handles.set a (some o),
      s1.counters.set c (some ((m + 1) % sizeModulus)), s1.trace⟩ := by
  have hb1 : s1.handle b = some o := by
    unfold Store.handle
    rw [release_handles hr]
    exact hb
  obtain ⟨p, r⟩ := o
  simp only at hoc
  subst hoc
  have hm2 : ∀ hs, (Store.mk hs s1.counters s1.trace).counter c = some m := fun _ => hm
  simp [SharedPtr.assign, ha, hb, hab, hr, hb1, Store.fetch_add, hm2, Store.setHandle]

theorem inv_step {s s1 : Store} {op : Op} (hinv : Inv s) (h : step s op = some s1)
    (hlen : s1.handles.length < sizeModulus) : Inv s1 := by
  cases op with
  | construct ptr =>
    simp only [step, Option.some.injEq] at h
    rw [← h]
    cases ptr with
    | none => exact inv_push_empty hinv
    | some p => exact inv_push_fresh hinv p
  | copyConstruct other =>
    simp only [step] at h
    cases ho : s.handle other with
    | none => simp [SharedPtr.copyConstruct, ho] at h
    | some o =>
      cases hc : o.ref_count_ with
      | none =>
        rw [copyConstruct_empty ho hc, Option.some.injEq] at h
        have hp : o.ptr_ = none := (hinv.paired other o ho).mpr hc
        have ho2 : o = ⟨none, none⟩ := by
          cases o
          simp_all
        rw [← h, ho2]
        exact inv_push_empty hinv
      | some c =>
        have hl : s.handles.length + 1 < sizeModulus := by
          have := Option.some.inj ((copyConstruct_shared ho hc
            (Classical.choose_spec (hinv.valid other o c ho hc))).symm.trans h)
          rw [← this] at hlen
          simpa using hlen
        obtain ⟨m, hm, hlt, hi⟩ := inv_push_share hinv ho hl c hc
        rw [copyConstruct_shared ho hc hm, Option.some.injEq, Nat.mod_eq_of_lt hlt] at h
        rw [← h]
        exact hi
  | assign this other =>
    simp only [step] at h
    cases ht : s.handle this with
    | none => simp [SharedPtr.assign, ht] at h
    | some t =>
      cases ho : s.handle other with
      | none => simp [SharedPtr.assign, ht, ho] at h
      | some o =>
        by_cases hne : this = other
        · simp [SharedPtr.assign, ht, ho, hne] at h
          rw [← h]
          exact hinv
        · obtain ⟨s2, hr, hrel, hh⟩ := released_of_inv hinv ht
          have ho2 : s2.handle other = some o := by
            unfold Store.handle
            rw [hh]
            exact ho
          have hne2 : other ≠ this := fun e => hne e.symm
          cases hc : o.ref_count_ with
          | none =>
            rw [assign_empty hne ht ho hr hc, Option.some.injEq] at h
            rw [← h]
            refine inv_of_released_drop hrel (some o) ?_
            intro x hx
            cases hx
            exact ⟨(hrel.paired other _ hne2 ho2).mpr hc, hc⟩
          | some c =>
            obtain ⟨m0, hm0⟩ := hrel.valid other o c hne2 ho2 hc
            have hl : s2.handles.length < sizeModulus := by
              have := Option.some.inj ((assign_shared hne ht ho hr hc hm0).symm.trans h)
              rw [← this] at hlen
              simpa using hlen
            obtain ⟨m, hm, hlt, hi⟩ := inv_of_released_adopt hrel hne2 ho2 hl c hc
            rw [assign_shared hne ht ho hr hc hm, Option.some.injEq,
              Nat.mod_eq_of_lt hlt] at h
            rw [← h]
            exact hi
  | reset this =>
    simp only [step, SharedPtr.reset] at h
    cases ht : s.handle this with
    | none => simp [ht] at h
    | some t =>
      obtain ⟨s2, hr, hrel, _⟩ := released_of_inv hinv ht
      simp only [ht, hr, Option.some.injEq] at h
      rw [← h]
      refine inv_of_released_drop hrel (some ⟨none, none⟩) ?_
      intro x hx
      cases hx
      exact ⟨rfl, rfl⟩
  | resetPtr this ptr =>
    simp only [step, SharedPtr.resetPtr] at h
    cases ht : s.handle this with
    | none => simp [ht] at h
    | some t =>
      by_cases hne : ptr = t.ptr_
      · simp [ht, hne] at h
        rw [← h]
        exact hinv
      · obtain ⟨s2, hr, hrel, _⟩ := released_of_inv hinv ht
        cases ptr with
        | none =>
          simp only [ht, hr, ne_eq, hne, not_false_eq_true, if_true, Option.some.injEq] at h
          rw [← h]
          refine inv_of_released_drop hrel (some ⟨none, none⟩) ?_
          intro x hx
          cases hx
          exact ⟨rfl, rfl⟩
        | some p =>
          simp only [ht, hr, ne_eq, hne, not_false_eq_true, if_true, Option.some.injEq] at h
          rw [← h]
          exact inv_of_released_fresh hrel p
  | destroy this =>
    simp only [step, SharedPtr.destroy] at h
    cases ht : s.handle this with
    | none => simp [ht] at h
    | some t =>
      obtain ⟨s2, hr, hrel, _⟩ := released_of_inv hinv ht
      simp only [ht, hr, Option.some.injEq] at h
      rw [← h]
      refine inv_of_released_drop hrel none ?_
      intro x hx
      cases hx

theorem inv_run {ops : List Op} {s s1 : Store} (hinv : Inv s) (h : run s ops = some s1)
    (hlen : s1.handles.length < sizeModulus) : Inv s1 := by
  induction ops generalizing s with
  | nil =>
    simp only [run, Option.some.injEq] at h
    rw [← h]
    exact hinv
  | cons op ops ih =>
    simp only [run] at h
    cases hs : step s op with
    | none => simp [hs] at h
    | some s2 =>
      simp only [hs] at h
      have := run_length h
      exact ih (inv_step hinv hs (by omega)) h

/-! ## Bookkeeping of the first control block -/

theorem deletions_mk (hs : List (Option SharedPtr)) (cs : List (Option Nat)) (tr : List Event)
    (p : Nat) : deletions (Store.mk hs cs tr) p = tr.count (Event.deletePointee p) := rfl

theorem blockZero_set {P0 : Nat} {s : Store} (hb : BlockZero P0 s) (hs : List (Option SharedPtr))
    (c m v : Nat) (hm : s.counter c = some m) :
    BlockZero P0 ⟨hs, s.counters.set c (some v), s.trace⟩ := by
  have hclt := counter_lt hm
  constructor
  · simpa using hb.alloc
  · rw [counter_mk, join_getElem?_set _ _ _ _ hclt, deletions_mk]
    have := hb.once
    unfold deletions at this
    by_cases hc : 0 = c
    · subst hc
      rw [if_pos rfl]
      rw [hm] at this
      simpa using this
    · rw [if_neg hc]
      exact this

theorem blockZero_push {P0 : Nat} {s : Store} (hb : BlockZero P0 s)
    (hs : List (Option SharedPtr)) (v : Option Nat) :
    BlockZero P0 ⟨hs, s.counters ++ [v], s.trace⟩ := by
  have ha := hb.alloc
  constructor
  · simp
  · rw [counter_mk, join_getElem?_push, deletions_mk]
    have := hb.once
    unfold deletions at this
    have hne : ¬ 0 = s.counters.length := by omega
    rw [if_neg hne]
    exact this

theorem blockZero_handles {P0 : Nat} {s : Store} (hb : BlockZero P0 s)
    (hs : List (Option SharedPtr)) : BlockZero P0 ⟨hs, s.counters, s.trace⟩ :=
  ⟨hb.alloc, hb.once⟩

theorem blockZero_release {P0 : Nat} {s s1 : Store} {i : Nat} {t : SharedPtr}
    (hinv : Inv s) (hl : Lineage P0 s) (hi : s.handle i = some t)
    (hr : t.release s = some s1) : BlockZero P0 s1 := by
  have hb := hl.block
  cases hc : t.ref_count_ with
  | none =>
    rw [release_empty t s hc, Option.some.injEq] at hr
    rw [← hr]
    exact hb
  | some c =>
    obtain ⟨n, hn⟩ := hinv.valid i t c hi hc
    have hclt := counter_lt hn
    by_cases h1 : n = 1
    · subst h1
      rw [release_last t s c hc hn, Option.some.injEq] at hr
      rw [← hr]
      have hown := hl.owns i t hi
      have honce := hb.once
      unfold deletions at honce
      constructor
      · simpa using hb.alloc
      · rw [counter_mk, join_getElem?_set _ _ _ _ hclt, deletions_mk]
        by_cases hc0 : c = 0
        · subst hc0
          have hp : t.ptr_ = some P0 := hown.mpr hc
          simp [hn] at honce
          simp [Store.deletePointee, hp, List.count_append, honce]
        · have hp : t.ptr_ ≠ some P0 := fun h => hc0 (Option.some.inj ((hown.mp h).symm.trans hc)).symm
          have hne : ¬ 0 = c := fun h => hc0 h.symm
          rw [if_neg hne]
          cases hpt : t.ptr_ with
          | none =>
            have hcnt : List.count (Event.deletePointee P0) [Event.deleteCounter c] = 0 := by
              simp [List.count_cons]
            simp only [Store.deletePointee, List.count_append, hcnt, Nat.add_zero]
            exact honce
          | some q =>
            have hq : q ≠ P0 := by
              intro hq
              rw [hpt, hq] at hp
              exact hp rfl
            have hcnt : List.count (Event.deletePointee P0)
                [Event.deletePointee q, Event.deleteCounter c] = 0 := by
              simp [List.count_cons, hq]
            simp only [Store.deletePointee, List.count_append, List.append_assoc,
              List.singleton_append, hcnt, Nat.add_zero]
            exact honce
    · rw [release_shared t s c n hc hn h1, Option.some.injEq] at hr
      rw [← hr]
      exact blockZero_set hb _ c n _ hn

theorem forall_handle_set {Q : SharedPtr → Prop} {hs : List (Option SharedPtr)}
    (hQ : ∀ (i : Nat) (h : SharedPtr), (hs[i]?).join = some h → Q h) (i : Nat) (e : Option SharedPtr)
    (he : ∀ h, e = some h → Q h) :
    ∀ (j : Nat) (h : SharedPtr), ((hs.set i e)[j]?).join = some h → Q h := by
  intro j h hj
  by_cases hil : i < hs.length
  · rw [join_getElem?_set _ _ _ _ hil] at hj
    by_cases hji : j = i
    · rw [if_pos hji] at hj
      exact he h hj
    · rw [if_neg hji] at hj
      exact hQ j h hj
  · rw [List.set_eq_of_length_le (by omega)] at hj
    exact hQ j h hj

theorem forall_handle_push {Q : SharedPtr → Prop} {hs : List (Option SharedPtr)}
    (hQ : ∀ (i : Nat) (h : SharedPtr), (hs[i]?).join = some h → Q h) (e : Option SharedPtr)
    (he : ∀ h, e = some h → Q h) :
    ∀ (j : Nat) (h : SharedPtr), ((hs ++ [e])[j]?).join = some h → Q h := by
  intro j h hj
  rw [join_getElem?_push] at hj
  by_cases hjl : j = hs.length
  · rw [if_pos hjl] at hj
    exact he h hj
  · rw [if_neg hjl] at hj
    exact hQ j h hj

theorem lineage_step {P0 : Nat} {s s1 : Store} {op : Op} (hinv : Inv s) (hl : Lineage P0 s)
    (hop : sharing P0 s op = true) (h : step s op = some s1) : Lineage P0 s1 := by
  have hb := hl.block
  cases op with
  | construct ptr => simp [sharing] at hop
  | copyConstruct other =>
    simp only [step] at h
    cases ho : s.handle other with
    | none => simp [SharedPtr.copyConstruct, ho] at h
    | some o =>
      have hown : ∀ x, some o = some x → (x.ptr_ = some P0 ↔ x.ref_count_ = some 0) := by
        intro x hx
        cases hx
        exact hl.owns other _ ho
      cases hc : o.ref_count_ with
      | none =>
        rw [copyConstruct_empty ho hc, Option.some.injEq] at h
        rw [← h]
        exact ⟨forall_handle_push hl.owns _ hown, blockZero_handles hb _⟩
      | some c =>
        obtain ⟨m, hm⟩ := hinv.valid other o c ho hc
        rw [copyConstruct_shared ho hc hm, Option.some.injEq] at h
        rw [← h]
        exact ⟨forall_handle_push hl.owns _ hown, blockZero_set hb _ c m _ hm⟩
  | assign this other =>
    simp only [step] at h
    cases ht : s.handle this with
    | none => simp [SharedPtr.assign, ht] at h
    | some t =>
      cases ho : s.handle other with
      | none => simp [SharedPtr.assign, ht, ho] at h
      | some o =>
        by_cases hne : this = other
        · simp [SharedPtr.assign, ht, ho, hne] at h
          rw [← h]
          exact hl
        · obtain ⟨s2, hr, hrel, hh⟩ := released_of_inv hinv ht
          have hb2 := blockZero_release hinv hl ht hr
          have hown2 : ∀ (i : Nat) (h : SharedPtr), (s2.handles[i]?).join = some h →
              (h.ptr_ = some P0 ↔ h.ref_count_ = some 0) := by
            rw [hh]
            exact hl.owns
          have hown : ∀ x, some o = some x → (x.ptr_ = some P0 ↔ x.ref_count_ = some 0) := by
            intro x hx
            cases hx
            exact hl.owns other _ ho
          have ho2 : s2.handle other = some o := by
            unfold Store.handle
            rw [hh]
            exact ho
          have hne2 : other ≠ this := fun e => hne e.symm
          cases hc : o.ref_count_ with
          | none =>
            rw [assign_empty hne ht ho hr hc, Option.some.injEq] at h
            rw [← h]
            exact ⟨forall_handle_set hown2 _ _ hown, blockZero_handles hb2 _⟩
          | some c =>
            obtain ⟨m, hm⟩ := hrel.valid other o c hne2 ho2 hc
            rw [assign_shared hne ht ho hr hc hm, Option.some.injEq] at h
            rw [← h]
            exact ⟨forall_handle_set hown2 _ _ hown, blockZero_set hb2 _ c m _ hm⟩
  | reset this =>
    simp only [step, SharedPtr.reset] at h
    cases ht : s.handle this with
    | none => simp [ht] at h
    | some t =>
      obtain ⟨s2, hr, hrel, hh⟩ := released_of_inv hinv ht
      have hb2 := blockZero_release hinv hl ht hr
      have hown2 : ∀ (i : Nat) (h : SharedPtr), (s2.handles[i]?).join = some h →
          (h.ptr_ = some P0 ↔ h.ref_count_ = some 0) := by
        rw [hh]
        exact hl.owns
      simp only [ht, hr, Option.some.injEq] at h
      rw [← h]
      refine ⟨forall_handle_set hown2 _ _ ?_, blockZero_handles hb2 _⟩
      intro x hx
      cases hx
      simp
  | resetPtr this ptr =>
    simp only [step, SharedPtr.resetPtr] at h
    cases ht : s.handle this with
    | none => simp [ht] at h
    | some t =>
      by_cases hne : ptr = t.ptr_
      · simp [ht, hne] at h
        rw [← h]
        exact hl
      · obtain ⟨s2, hr, hrel, hh⟩ := released_of_inv hinv ht
        have hb2 := blockZero_release hinv hl ht hr
        have hown2 : ∀ (i : Nat) (h : SharedPtr), (s2.handles[i]?).join = some h →
            (h.ptr_ = some P0 ↔ h.ref_count_ = some 0) := by
          rw [hh]
          exact hl.owns
        cases ptr with
        | none =>
          simp only [ht, hr, ne_eq, hne, not_false_eq_true, if_true, Option.some.injEq] at h
          rw [← h]
          refine ⟨forall_handle_set hown2 _ _ ?_, blockZero_handles hb2 _⟩
          intro x hx
          cases hx
          simp
        | some p =>
          simp only [ht, hr, ne_eq, hne, not_false_eq_true, if_true, Option.some.injEq] at h
          rw [← h]
          have hp : p ≠ P0 := by
            intro hp
            subst hp
            simp [sharing, ht] at hop
            exact hne hop.symm
          have hpos := hb2.alloc
          refine ⟨forall_handle_set hown2 _ _ ?_, blockZero_push hb2 _ _⟩
          intro x hx
          cases hx
          simp only [Store.newCounter, Option.some.injEq]
          constructor
          · intro hh
            exact absurd hh hp
          · intro hh
            omega
  | destroy this =>
    simp only [step, SharedPtr.destroy] at h
    cases ht : s.handle this with
    | none => simp [ht] at h
    | some t =>
      obtain ⟨s2, hr, hrel, hh⟩ := released_of_inv hinv ht
      have hb2 := blockZero_release hinv hl ht hr
      have hown2 : ∀ (i : Nat) (h : SharedPtr), (s2.handles[i]?).join = some h →
          (h.ptr_ = some P0 ↔ h.ref_count_ = some 0) := by
        rw [hh]
        exact hl.owns
      simp only [ht, hr, Option.some.injEq] at h
      rw [← h]
      refine ⟨forall_handle_set hown2 _ _ ?_, blockZero_handles hb2 _⟩
      intro x hx
      cases hx

theorem lineage_run {P0 : Nat} {ops : List Op} {s s1 : Store} (hinv : Inv s)
    (hl : Lineage P0 s) (hops : sharingRun P0 s ops = true) (h : run s ops = some s1)
    (hlen : s1.handles.length < sizeModulus) : Inv s1 ∧ Lineage P0 s1 := by
  induction ops generalizing s with
  | nil =>
    simp only [run, Option.some.injEq] at h
    rw [← h]
    exact ⟨hinv, hl⟩
  | cons op ops ih =>
    simp only [run] at h
    cases hs : step s op with
    | none => simp [hs] at h
    | some s2 =>
      simp only [hs] at h
      simp only [sharingRun, hs, Bool.and_eq_true] at hops
      have := run_length h
      exact ih (inv_step hinv hs (by omega)) (lineage_step hinv hl hops.1 hs) hops.2 h

theorem lineage_init (P0 : Nat) :
    Inv (SharedPtr.construct Store.empty (some P0)) ∧
      Lineage P0 (SharedPtr.construct Store.empty (some P0)) := by
  refine ⟨inv_push_fresh inv_empty P0, ?_, ?_⟩
  · intro i h hi
    have hi2 : (([some (SharedPtr.mk (some P0) (some 0))] : List (Option SharedPtr))[i]?).join
        = some h := hi
    cases i with
    | zero =>
      simp at hi2
      rw [← hi2]
      simp
    | succ k => simp at hi2
  · constructor
    · simp [SharedPtr.construct, Store.newCounter, Store.pushHandle, Store.empty]
    · simp [SharedPtr.construct, Store.newCounter, Store.pushHandle, Store.empty, deletions,
        Store.counter, one_mod_sizeModulus]

theorem lineage_deletions {P0 : Nat} {s : Store} (hinv : Inv s) (hl : Lineage P0 s) :
    deletions s P0 = if s.handles.countP (pointsTo P0) = 0 then 1 else 0 := by
  have hcongr : s.handles.countP (pointsTo P0) = owners s 0 := by
    unfold owners
    apply List.countP_congr
    intro e he
    obtain ⟨j, hj, rfl⟩ := List.getElem_of_mem he
    cases hej : s.handles[j] with
    | none => simp [pointsTo, refersTo]
    | some h =>
      have hh : s.handle j = some h := by
        unfold Store.handle
        rw [List.getElem?_eq_getElem hj, hej]
        rfl
      simpa [pointsTo, refersTo] using hl.owns j h hh
  rw [hl.block.once, hcongr]
  cases hc : s.counter 0 with
  | none =>
    have h0 : owners s 0 = 0 := by
      unfold owners
      rw [List.countP_eq_zero]
      intro e he
      obtain ⟨j, hj, rfl⟩ := List.getElem_of_mem he
      cases hej : s.handles[j] with
      | none => simp [refersTo]
      | some h =>
        have hh : s.handle j = some h := by
          unfold Store.handle
          rw [List.getElem?_eq_getElem hj, hej]
          rfl
        simp only [refersTo, beq_iff_eq, Bool.not_eq_true, beq_eq_false_iff_ne, ne_eq]
        intro hr
        obtain ⟨n, hn⟩ := hinv.valid j h 0 hh hr
        rw [hc] at hn
        cases hn
    simp [h0]
  | some n =>
    have h1 := hinv.count 0 n hc
    have h2 := hinv.pos 0 n hc
    have : owners s 0 ≠ 0 := by omega
    simp [this]

/-! ## Count correctness and single destruction -/

/-- C1, count correctness.  In every store reached from the empty one by a finite sequence
of construct, copy-construct, copy-assign, `reset()`, `reset(P)` and destroy operations
(the handle table holding fewer than `2 ^ 64` objects, as any address space of `size_t`
width forces), the counter of every control block that has not been freed equals the number
of live handles whose `ref_count_` refers to it, and `use_count()` returns that number on
each such handle. -/
theorem count_correctness (ops : List Op) (s : Store) (hrun : run Store.empty ops = some s)
    (hlen : s.handles.length < sizeModulus) :
    (∀ c n, s.counter c = some n → n = owners s c) ∧
    (∀ i h c, s.handle i = some h → h.ref_count_ = some c →
      SharedPtr.use_count s i = some (owners s c)) := by
  have hinv := inv_run inv_empty hrun hlen
  refine ⟨hinv.count, ?_⟩
  intro i h c hi hc
  obtain ⟨n, hn⟩ := hinv.valid i h c hi hc
  simp only [SharedPtr.use_count, hi, hc, hn, Option.some.injEq]
  exact hinv.count c n hn

/-- Witness for C1: two pointees, a copy, an assignment and a destruction; the remaining
handle `0` on block `0` shares it with handle `2`. -/
theorem count_correctness_witness :
    run Store.empty [Op.construct (some 7), Op.copyConstruct 0, Op.construct (some 8),
      Op.assign 2 0, Op.destroy 1] =
      some ⟨[some ⟨some 7, some 0⟩, none, some ⟨some 7, some 0⟩], [some 2, none],
        [Event.deletePointee 8, Event.deleteCounter 1]⟩ ∧
    SharedPtr.use_count ⟨[some ⟨some 7, some 0⟩, none, some ⟨some 7, some 0⟩], [some 2, none],
        [Event.deletePointee 8, Event.deleteCounter 1]⟩ 0 = some 2 :=
  ⟨by decide,
    (count_correctness [Op.construct (some 7), Op.copyConstruct 0, Op.construct (some 8),
      Op.assign 2 0, Op.destroy 1] _ (by decide) (by simp [sizeModulus])).2 0 _ 0 rfl rfl⟩

/-- C2 as stated fails.  With `reset(P)` allowed for any raw pointer, a copy of the first
handle can be emptied and then reset to the shared pointee `7` itself; it gets a control
block of its own.  Destroying the copy deletes `7` while handle `0` still refers to it, and
destroying handle `0` deletes `7` a second time. -/
theorem single_destruction_counterexample :
    (run (SharedPtr.construct Store.empty (some 7))
        [Op.copyConstruct 0, Op.reset 1, Op.resetPtr 1 (some 7), Op.destroy 1] =
      some ⟨[some ⟨some 7, some 0⟩, none], [some 1, none],
        [Event.deletePointee 7, Event.deleteCounter 1]⟩) ∧
    (run (SharedPtr.construct Store.empty (some 7))
        [Op.copyConstruct 0, Op.reset 1, Op.resetPtr 1 (some 7), Op.destroy 1, Op.destroy 0] =
      some ⟨[none, none], [none, none],
        [Event.deletePointee 7, Event.deleteCounter 1,
         Event.deletePointee 7, Event.deleteCounter 0]⟩) ∧
    deletions ⟨[none, none], [none, none],
        [Event.deletePointee 7, Event.deleteCounter 1,
         Event.deletePointee 7, Event.deleteCounter 0]⟩ 7 = 2 := by
  decide

/-- C2 amended: `reset(P0)` is applied only to a handle whose pointee is `P0` already
(where it does nothing).  For every finite sequence of copy-construct, copy-assign,
`reset()`, such `reset(P)` and destroy operations on the handles descending from one handle
constructed from `P0`, `delete` has been executed on `P0` exactly once if no live handle
refers to `P0` and not at all otherwise; and a step that executes it leaves no live handle
referring to `P0`. -/
theorem single_destruction (P0 : Nat) (ops : List Op) (s : Store)
    (hops : sharingRun P0 (SharedPtr.construct Store.empty (some P0)) ops = true)
    (hrun : run (SharedPtr.construct Store.empty (some P0)) ops = some s)
    (hlen : s.handles.length < sizeModulus) :
    deletions s P0 = (if s.handles.countP (pointsTo P0) = 0 then 1 else 0) ∧
    (∀ op s1, sharing P0 s op = true → step s op = some s1 →
      s1.handles.length < sizeModulus → deletions s P0 < deletions s1 P0 →
      s1.handles.countP (pointsTo P0) = 0) := by
  obtain ⟨hinv, hl⟩ := lineage_run (lineage_init P0).1 (lineage_init P0).2 hops hrun hlen
  refine ⟨lineage_deletions hinv hl, ?_⟩
  intro op s1 hop hstep hlen1 hlt
  have hinv1 := inv_step hinv hstep hlen1
  have hl1 := lineage_step hinv hl hop hstep
  have hd := lineage_deletions hinv1 hl1
  by_contra hne
  rw [if_neg hne] at hd
  omega

/-- Witness for C2 amended: the scenario of the specification, `H1` from `P`, a copy `H2`
(reset to its own pointee in between), `H2` destroyed, `H1` destroyed; the pointee is
deleted once, by the last step. -/
theorem single_destruction_witness :
    run (SharedPtr.construct Store.empty (some 7))
        [Op.copyConstruct 0, Op.resetPtr 1 (some 7), Op.destroy 1, Op.destroy 0] =
      some ⟨[none, none], [none], [Event.deletePointee 7, Event.deleteCounter 0]⟩ ∧
    deletions ⟨[none, none], [none], [Event.deletePointee 7, Event.deleteCounter 0]⟩ 7 =
      (if List.countP (pointsTo 7) [none, none] = 0 then 1 else 0) :=
  ⟨by decide,
    (single_destruction 7 [Op.copyConstruct 0, Op.resetPtr 1 (some 7), Op.destroy 1,
      Op.destroy 0] _ (by decide) (by decide) (by simp [sizeModulus])).1⟩

/-! ## The member functions one by one -/

theorem sub_one_mod_sizeModulus (n : Nat) (h1 : 1 ≤ n) (hn : n < sizeModulus) :
    (n + sizeModulus - 1) % sizeModulus = n - 1 := by
  have : n + sizeModulus - 1 = (n - 1) + sizeModulus := by omega
  rw [this, Nat.add_mod_right]
  exact Nat.mod_eq_of_lt (by omega)

/-- C4, copy construction.  Copying a live handle `i` whose control block is allocated and
whose `use_count()` is `n` (with `n + 1` a `size_t` value) succeeds; the new handle and the
source hold the same pointee and the same control block, `use_count()` is `n + 1` on both,
no `delete` is executed and no control block is freed.  Copying a handle without a control
block adds a handle with the same (null) members and `use_count()` 0, and changes nothing
else. -/
theorem copy_construction (s : Store) (i : Nat) (o : SharedPtr) (hi : s.handle i = some o) :
    (∀ c n, o.ref_count_ = some c → SharedPtr.use_count s i = some n →
      n + 1 < sizeModulus →
      ∃ s1, SharedPtr.copyConstruct s i = some s1 ∧
        s1.handle s.handles.length = some o ∧ s1.handle i = some o ∧
        SharedPtr.use_count s1 s.handles.length = some (n + 1) ∧
        SharedPtr.use_count s1 i = some (n + 1) ∧
        s1.trace = s.trace ∧ (∀ c2, (s1.counter c2).isSome = (s.counter c2).isSome)) ∧
    (o.ref_count_ = none →
      SharedPtr.copyConstruct s i = some ⟨s.handles ++ [some o], s.counters, s.trace⟩ ∧
      SharedPtr.use_count ⟨s.handles ++ [some o], s.counters, s.trace⟩ s.handles.length =
        some 0) := by
  have hil := handle_lt hi
  have hnew : ∀ cs tr, (Store.mk (s.handles ++ [some o]) cs tr).handle s.handles.length
      = some o := by
    intro cs tr
    rw [handle_mk, join_getElem?_push, if_pos rfl]
  have hold : ∀ cs tr, (Store.mk (s.handles ++ [some o]) cs tr).handle i = some o := by
    intro cs tr
    rw [handle_mk, join_getElem?_push, if_neg (by omega)]
    exact hi
  constructor
  · intro c n hc hn hlt
    have hm : s.counter c = some n := by
      simpa [SharedPtr.use_count, hi, hc] using hn
    have hclt := counter_lt hm
    refine ⟨_, copyConstruct_shared hi hc hm, hnew _ _, hold _ _, ?_, ?_, rfl, ?_⟩
    · simp only [SharedPtr.use_count, hnew, hc]
      rw [counter_mk, join_getElem?_set _ _ _ _ hclt, if_pos rfl, Nat.mod_eq_of_lt hlt]
    · simp only [SharedPtr.use_count, hold, hc]
      rw [counter_mk, join_getElem?_set _ _ _ _ hclt, if_pos rfl, Nat.mod_eq_of_lt hlt]
    · intro c2
      rw [counter_mk, join_getElem?_set _ _ _ _ hclt]
      by_cases hcc : c2 = c
      · simp [hcc, hm]
      · rw [if_neg hcc]
        rfl
  · intro hc
    refine ⟨copyConstruct_empty hi hc, ?_⟩
    simp only [SharedPtr.use_count, hnew, hc]

/-- Witness for C4: copying the sole owner of pointee 7. -/
theorem copy_construction_witness :
    ∃ s1, SharedPtr.copyConstruct ⟨[some ⟨some 7, some 0⟩], [some 1], []⟩ 0 = some s1 ∧
      s1.handle 1 = some ⟨some 7, some 0⟩ ∧ s1.handle 0 = some ⟨some 7, some 0⟩ ∧
      SharedPtr.use_count s1 1 = some 2 ∧ SharedPtr.use_count s1 0 = some 2 ∧
      s1.trace = [] ∧
      (∀ c2, (s1.counter c2).isSome =
        ((⟨[some ⟨some 7, some 0⟩], [some 1], []⟩ : Store).counter c2).isSome) :=
  (copy_construction ⟨[some ⟨some 7, some 0⟩], [some 1], []⟩ 0 ⟨some 7, some 0⟩ rfl).1
    0 1 rfl rfl (by simp [sizeModulus])

/-- C6, self-assignment safety.  For a live handle `a`, whatever it owns, `a = a` returns
the store unchanged: same members of every handle, same counters, same trace of deletions. -/
theorem self_assignment (s : Store) (a : Nat) (t : SharedPtr) (ha : s.handle a = some t) :
    SharedPtr.assign s a a = some s := by
  simp [SharedPtr.assign, ha]

/-- Witness for C6: the sole owner of pointee 7 assigned to itself. -/
theorem self_assignment_witness :
    SharedPtr.assign ⟨[some ⟨some 7, some 0⟩], [some 1], []⟩ 0 0 =
      some ⟨[some ⟨some 7, some 0⟩], [some 1], []⟩ :=
  self_assignment ⟨[some ⟨some 7, some 0⟩], [some 1], []⟩ 0 ⟨some 7, some 0⟩ rfl

/-- C8, `reset(P)` with the current pointee.  For a live handle `i`, empty or not,
`reset(P)` with `P` equal to its `ptr_` returns the store unchanged: no control block is
allocated, nothing is deleted, no counter changes. -/
theorem reset_same_pointer (s : Store) (i : Nat) (t : SharedPtr) (hi : s.handle i = some t) :
    SharedPtr.resetPtr s i t.ptr_ = some s := by
  simp [SharedPtr.resetPtr, hi]

/-- Witness for C8: the sole owner of pointee 7 reset to 7. -/
theorem reset_same_pointer_witness :
    SharedPtr.resetPtr ⟨[some ⟨some 7, some 0⟩], [some 1], []⟩ 0 (some 7) =
      some ⟨[some ⟨some 7, some 0⟩], [some 1], []⟩ :=
  reset_same_pointer ⟨[some ⟨some 7, some 0⟩], [some 1], []⟩ 0 ⟨some 7, some 0⟩ rfl

/-- C10, construction from a raw pointer.  For a non-null `p` the new handle stores `p` and
a control block that was not allocated before and now holds 1, `use_count()` returns 1 and
nothing else changes; for a null pointer (the default argument) the new handle stores
`(null, null)`, `use_count()` returns 0 and no control block is allocated. -/
theorem construct_from_raw (s : Store) (p : Nat) :
    (SharedPtr.construct s (some p)).handle s.handles.length =
        some ⟨some p, some s.counters.length⟩ ∧
      s.counter s.counters.length = none ∧
      (SharedPtr.construct s (some p)).counter s.counters.length = some 1 ∧
      SharedPtr.use_count (SharedPtr.construct s (some p)) s.handles.length = some 1 ∧
      (∀ c, c ≠ s.counters.length →
        (SharedPtr.construct s (some p)).counter c = s.counter c) ∧
      (SharedPtr.construct s (some p)).trace = s.trace ∧
    (SharedPtr.construct s none).handle s.handles.length = some ⟨none, none⟩ ∧
      SharedPtr.use_count (SharedPtr.construct s none) s.handles.length = some 0 ∧
      (SharedPtr.construct s none).counters = s.counters ∧
      (SharedPtr.construct s none).trace = s.trace := by
  have h1 : (SharedPtr.construct s (some p)).handle s.handles.length =
      some ⟨some p, some s.counters.length⟩ := by
    simp only [SharedPtr.construct, Store.newCounter, Store.pushHandle]
    rw [handle_mk, join_getElem?_push, if_pos rfl]
  have h2 : (SharedPtr.construct s (some p)).counter s.counters.length = some 1 := by
    simp only [SharedPtr.construct, Store.newCounter, Store.pushHandle]
    rw [counter_mk, join_getElem?_push, if_pos rfl, one_mod_sizeModulus]
  have h3 : (SharedPtr.construct s none).handle s.handles.length = some ⟨none, none⟩ := by
    simp only [SharedPtr.construct, Store.pushHandle]
    rw [handle_mk, join_getElem?_push, if_pos rfl]
  refine ⟨h1, ?_, h2, ?_, ?_, rfl, h3, ?_, rfl, rfl⟩
  · unfold Store.counter
    rw [List.getElem?_eq_none (Nat.le_refl _)]
    rfl
  · simp only [SharedPtr.use_count, h1, h2]
  · intro c hc
    simp only [SharedPtr.construct, Store.newCounter, Store.pushHandle]
    rw [counter_mk, join_getElem?_push, if_neg hc]
    rfl
  · simp only [SharedPtr.use_count, h3]

theorem set_getElem_same {α : Type} (l : List α) (i : Nat) (h : i < l.length) :
    l.set i l[i] = l := by
  induction l generalizing i with
  | nil => rfl
  | cons x xs ih =>
    cases i with
    | zero => rfl
    | succ k =>
      simp only [List.length_cons, Nat.add_lt_add_iff_right] at h
      simp [ih k h]

theorem release_of_valid {t : SharedPtr} {s : Store}
    (hv : ∀ c, t.ref_count_ = some c → ∃ n, s.counter c = some n) :
    ∃ s1, t.release s = some s1 ∧ s1.handles = s.handles ∧
      s.counters.length ≤ s1.counters.length ∧
      (∀ p1 c, t.ptr_ = some p1 → t.ref_count_ = some c → s.counter c = some 1 →
        s1.trace = s.trace ++ [Event.deletePointee p1, Event.deleteCounter c] ∧
        s1.counter c = none) := by
  cases hc : t.ref_count_ with
  | none =>
    refine ⟨s, release_empty t s hc, rfl, Nat.le_refl _, ?_⟩
    intro p1 c _ h
    cases h
  | some c =>
    obtain ⟨n, hn⟩ := hv c hc
    have hclt := counter_lt hn
    by_cases h1 : n = 1
    · subst h1
      refine ⟨_, release_last t s c hc hn, rfl, by simp, ?_⟩
      intro p1 c2 hp hc2 _
      cases hc2
      constructor
      · simp [Store.deletePointee, hp]
      · rw [counter_mk, join_getElem?_set _ _ _ _ hclt, if_pos rfl]
    · refine ⟨_, release_shared t s c n hc hn h1, rfl, by simp, ?_⟩
      intro p1 c2 _ hc2 h2
      cases hc2
      rw [hn] at h2
      exact absurd (Option.some.inj h2) h1

/-- Witness for C10: construction from pointee 7, and default construction, in the empty
store. -/
theorem construct_from_raw_witness :
    (SharedPtr.construct Store.empty (some 7)).handle 0 = some ⟨some 7, some 0⟩ ∧
    SharedPtr.use_count (SharedPtr.construct Store.empty (some 7)) 0 = some 1 ∧
    (SharedPtr.construct Store.empty none).handle 0 = some ⟨none, none⟩ ∧
    SharedPtr.use_count (SharedPtr.construct Store.empty none) 0 = some 0 :=
  ⟨(construct_from_raw Store.empty 7).1,
   (construct_from_raw Store.empty 7).2.2.2.1,
   (construct_from_raw Store.empty 7).2.2.2.2.2.2.1,
   (construct_from_raw Store.empty 7).2.2.2.2.2.2.2.1⟩

/-! ## Outcomes of the operations, case by case -/

theorem releases_of_inv {s : Store} (hinv : Inv s) {i : Nat} {t : SharedPtr}
    (hi : s.handle i = some t) :
    ∃ s1, t.release s = some s1 ∧ Releases s t s1 ∧ Released s1 i t ∧
      s1.handles = s.handles := by
  obtain ⟨s1, hr, hrd, hh⟩ := released_of_inv hinv hi
  refine ⟨s1, hr, ?_, hrd, hh⟩
  cases hc : t.ref_count_ with
  | none =>
    rw [release_empty t s hc, Option.some.injEq] at hr
    rw [← hr]
    exact Releases.empty hc
  | some c =>
    obtain ⟨n, hn⟩ := hinv.valid i t c hi hc
    have hpos := hinv.pos c n hn
    have hlt := hinv.lt c n hn
    by_cases h1 : n = 1
    · subst h1
      cases hp : t.ptr_ with
      | none =>
        have := (hinv.paired i t hi).mp hp
        rw [hc] at this
        cases this
      | some p =>
        rw [release_last t s c hc hn, Option.some.injEq] at hr
        rw [← hr]
        have := Releases.last (s := s) (t := t) p c hp hc hn
        simpa [Store.deletePointee, hp] using this
    · rw [release_shared t s c n hc hn h1, Option.some.injEq,
        sub_one_mod_sizeModulus n hpos hlt] at hr
      rw [← hr]
      exact Releases.shared c n hc hn (by omega)

theorem step_effect {s s1 : Store} {op : Op} (hinv : Inv s) (h : step s op = some s1)
    (hlen : s1.handles.length < sizeModulus) : Effect s op s1 := by
  cases op with
  | construct ptr =>
    simp only [step, Option.some.injEq] at h
    rw [← h]
    cases ptr with
    | none => exact Effect.constructNull
    | some p =>
      have := Effect.constructNew (s := s) p
      simpa [SharedPtr.construct, Store.newCounter, Store.pushHandle,
        one_mod_sizeModulus] using this
  | copyConstruct other =>
    simp only [step] at h
    cases ho : s.handle other with
    | none => simp [SharedPtr.copyConstruct, ho] at h
    | some o =>
      cases hc : o.ref_count_ with
      | none =>
        rw [copyConstruct_empty ho hc, Option.some.injEq] at h
        rw [← h]
        exact Effect.copyNull other o ho hc
      | some c =>
        have hl : s.handles.length + 1 < sizeModulus := by
          have := Option.some.inj ((copyConstruct_shared ho hc
            (Classical.choose_spec (hinv.valid other o c ho hc))).symm.trans h)
          rw [← this] at hlen
          simpa using hlen
        obtain ⟨m, hm, hlt, _⟩ := inv_push_share hinv ho hl c hc
        rw [copyConstruct_shared ho hc hm, Option.some.injEq, Nat.mod_eq_of_lt hlt] at h
        rw [← h]
        exact Effect.copyShared other o c m ho hc hm hlt
  | assign this other =>
    simp only [step] at h
    cases ht : s.handle this with
    | none => simp [SharedPtr.assign, ht] at h
    | some t =>
      cases ho : s.handle other with
      | none => simp [SharedPtr.assign, ht, ho] at h
      | some o =>
        by_cases hne : this = other
        · subst hne
          simp [SharedPtr.assign, ht] at h
          rw [← h]
          exact Effect.assignSelf this t ht
        · obtain ⟨s2, hr, hrs, hrel, hh⟩ := releases_of_inv hinv ht
          have ho2 : s2.handle other = some o := by
            unfold Store.handle
            rw [hh]
            exact ho
          have hne2 : other ≠ this := fun e => hne e.symm
          cases hc : o.ref_count_ with
          | none =>
            rw [assign_empty hne ht ho hr hc, Option.some.injEq] at h
            rw [← h]
            exact Effect.assignNull this other t o s2 hne ht ho hrs hrel hc
          | some c =>
            obtain ⟨m0, hm0⟩ := hrel.valid other o c hne2 ho2 hc
            have hl : s2.handles.length < sizeModulus := by
              have := Option.some.inj ((assign_shared hne ht ho hr hc hm0).symm.trans h)
              rw [← this] at hlen
              simpa using hlen
            obtain ⟨m, hm, hlt, _⟩ := inv_of_released_adopt hrel hne2 ho2 hl c hc
            rw [assign_shared hne ht ho hr hc hm, Option.some.injEq,
              Nat.mod_eq_of_lt hlt] at h
            rw [← h]
            exact Effect.assignShared this other t o s2 c m hne ht ho hrs hrel hc hm hlt
  | reset this =>
    simp only [step, SharedPtr.reset] at h
    cases ht : s.handle this with
    | none => simp [ht] at h
    | some t =>
      obtain ⟨s2, hr, hrs, hrel, _⟩ := releases_of_inv hinv ht
      simp only [ht, hr, Option.some.injEq] at h
      rw [← h]
      exact Effect.reset this t s2 ht hrs hrel
  | resetPtr this ptr =>
    simp only [step, SharedPtr.resetPtr] at h
    cases ht : s.handle this with
    | none => simp [ht] at h
    | some t =>
      by_cases hne : ptr = t.ptr_
      · subst hne
        simp [ht] at h
        rw [← h]
        exact Effect.resetSame this t ht
      · obtain ⟨s2, hr, hrs, hrel, _⟩ := releases_of_inv hinv ht
        cases ptr with
        | none =>
          simp only [ht, hr, ne_eq, hne, not_false_eq_true, if_true, Option.some.injEq] at h
          rw [← h]
          exact Effect.resetNull this t s2 ht hne hrs hrel
        | some p =>
          simp only [ht, hr, ne_eq, hne, not_false_eq_true, if_true, Option.some.injEq] at h
          rw [← h]
          have := Effect.resetNew this t s2 p ht hne hrs hrel
          simpa [Store.setHandle, Store.newCounter, one_mod_sizeModulus] using this
  | destroy this =>
    simp only [step, SharedPtr.destroy] at h
    cases ht : s.handle this with
    | none => simp [ht] at h
    | some t =>
      obtain ⟨s2, hr, hrs, hrel, _⟩ := releases_of_inv hinv ht
      simp only [ht, hr, Option.some.injEq] at h
      rw [← h]
      exact Effect.destroy this t s2 ht hrs hrel

/-! ## The history is maintained by every operation -/

theorem deletesOf_append (g : Nat → Nat) (l1 l2 : List Nat) :
    deletesOf g (l1 ++ l2) = deletesOf g l1 ++ deletesOf g l2 := by
  induction l1 with
  | nil => rfl
  | cons c cs ih => simp [deletesOf, ih]

theorem deletesOf_congr {g g2 : Nat → Nat} {order : List Nat}
    (h : ∀ c ∈ order, g2 c = g c) : deletesOf g2 order = deletesOf g order := by
  induction order with
  | nil => rfl
  | cons c cs ih =>
    simp only [deletesOf]
    rw [h c (List.mem_cons_self _ _), ih (fun x hx => h x (List.mem_cons_of_mem _ hx))]

theorem deletesOf_split (g : Nat → Nat) {order : List Nat} {c : Nat} (hc : c ∈ order) :
    ∃ pre post, deletesOf g order =
      pre ++ [Event.deletePointee (g c), Event.deleteCounter c] ++ post := by
  induction order with
  | nil => cases hc
  | cons d ds ih =>
    by_cases hd : c = d
    · subst hd
      exact ⟨[], deletesOf g ds, by simp [deletesOf]⟩
    · have hmem : c ∈ ds := by
        cases hc with
        | head => exact absurd rfl hd
        | tail _ h => exact h
      obtain ⟨pre, post, hpp⟩ := ih hmem
      exact ⟨Event.deletePointee (g d) :: Event.deleteCounter d :: pre, post,
        by simp [deletesOf, hpp]⟩

theorem count_deleteCounter (g : Nat → Nat) (order : List Nat) (c : Nat) :
    (deletesOf g order).count (Event.deleteCounter c) = order.count c := by
  induction order with
  | nil => rfl
  | cons d ds ih =>
    simp only [deletesOf, List.count_cons, ih]
    by_cases hd : d = c <;> simp [hd]

theorem count_deletePointee (g : Nat → Nat) (order : List Nat) (p : Nat) :
    (deletesOf g order).count (Event.deletePointee p) = (order.map g).count p := by
  induction order with
  | nil => rfl
  | cons d ds ih =>
    simp only [deletesOf, List.count_cons, ih, List.map_cons]
    by_cases hd : g d = p <;> simp [hd]

theorem mem_deletesOf_pointee {g : Nat → Nat} {order : List Nat} {p : Nat}
    (h : Event.deletePointee p ∈ deletesOf g order) : ∃ c ∈ order, g c = p := by
  induction order with
  | nil => cases h
  | cons d ds ih =>
    simp only [deletesOf, List.mem_cons, Event.deletePointee.injEq] at h
    rcases h with h | h | h
    · exact ⟨d, List.mem_cons_self _ _, h.symm⟩
    · cases h
    · obtain ⟨c, hc, hg⟩ := ih h
      exact ⟨c, List.mem_cons_of_mem _ hc, hg⟩

theorem mem_deletesOf_counter {g : Nat → Nat} {order : List Nat} {c : Nat}
    (h : Event.deleteCounter c ∈ deletesOf g order) : c ∈ order := by
  induction order with
  | nil => cases h
  | cons d ds ih =>
    simp only [deletesOf, List.mem_cons, Event.deleteCounter.injEq] at h
    rcases h with h | h | h
    · cases h
    · rw [h]
      exact List.mem_cons_self _ _
    · exact List.mem_cons_of_mem _ (ih h)

theorem releases_length {s s1 : Store} {t : SharedPtr} (hr : Releases s t s1) :
    s1.counters.length = s.counters.length ∧ s1.handles = s.handles := by
  cases hr <;> simp

theorem history_releases {s s1 : Store} {t : SharedPtr} {i : Nat} {g : Nat → Nat}
    {order : List Nat} (hh : History s g order) (hi : s.handle i = some t)
    (hr : Releases s t s1) :
    ∃ order2, History s1 g order2 ∧ ∀ c ∈ order, c ∈ order2 := by
  cases hr with
  | empty hc => exact ⟨order, hh, fun c hc => hc⟩
  | shared c n hc hn h2 =>
    refine ⟨order, ⟨hh.coh, hh.tr, hh.nodup, ?_⟩, fun c hc => hc⟩
    intro c2
    have hclt := counter_lt hn
    rw [counter_mk, join_getElem?_set _ _ _ _ hclt, hh.mem c2]
    by_cases hcc : c2 = c
    · subst hcc
      simp [hn]
    · simp [hcc, Store.counter]
  | last p c hp hc hn =>
    have hclt := counter_lt hn
    have hpg : p = g c := by
      have := hh.coh i t c hi hc
      rw [hp] at this
      exact Option.some.inj this
    have hnot : c ∉ order := by
      intro hmem
      have := ((hh.mem c).mp hmem).2
      rw [hn] at this
      cases this
    refine ⟨order ++ [c], ⟨hh.coh, ?_, ?_, ?_⟩, fun c2 hc2 => List.mem_append_left _ hc2⟩
    · show s.trace ++ _ = _
      rw [deletesOf_append, hh.tr, hpg]
      rfl
    · rw [List.nodup_append]
      refine ⟨hh.nodup, List.nodup_singleton c, ?_⟩
      intro x hx1 hx2
      rw [List.mem_singleton] at hx2
      subst hx2
      exact hnot hx1
    · intro c2
      rw [List.mem_append, List.mem_singleton, counter_mk,
        join_getElem?_set _ _ _ _ hclt, hh.mem c2]
      by_cases hcc : c2 = c
      · subst hcc
        simp [hclt]
      · simp [hcc, Store.counter]

theorem history_set {s : Store} {g : Nat → Nat} {order : List Nat} (hh : History s g order)
    (i : Nat) (e : Option SharedPtr)
    (he : ∀ h, e = some h → ∀ c, h.ref_count_ = some c → h.ptr_ = some (g c)) :
    History ⟨s.handles.set i e, s.counters, s.trace⟩ g order := by
  refine ⟨?_, hh.tr, hh.nodup, hh.mem⟩
  intro j h c hj
  exact forall_handle_set (Q := fun h => ∀ c, h.ref_count_ = some c → h.ptr_ = some (g c))
    (fun i h hi c hc => hh.coh i h c hi hc) i e he j h hj c

theorem history_push {s : Store} {g : Nat → Nat} {order : List Nat} (hh : History s g order)
    (e : Option SharedPtr)
    (he : ∀ h, e = some h → ∀ c, h.ref_count_ = some c → h.ptr_ = some (g c)) :
    History ⟨s.handles ++ [e], s.counters, s.trace⟩ g order := by
  refine ⟨?_, hh.tr, hh.nodup, hh.mem⟩
  intro j h c hj
  exact forall_handle_push (Q := fun h => ∀ c, h.ref_count_ = some c → h.ptr_ = some (g c))
    (fun i h hi c hc => hh.coh i h c hi hc) e he j h hj c

theorem history_counter {s : Store} {g : Nat → Nat} {order : List Nat}
    (hh : History s g order) {c m : Nat} (hm : s.counter c = some m) (v : Nat) :
    History ⟨s.handles, s.counters.set c (some v), s.trace⟩ g order := by
  refine ⟨hh.coh, hh.tr, hh.nodup, ?_⟩
  intro c2
  have hclt := counter_lt hm
  rw [counter_mk, join_getElem?_set _ _ _ _ hclt, hh.mem c2]
  by_cases hcc : c2 = c
  · subst hcc
    simp [hm]
  · simp [hcc, Store.counter]

theorem history_alloc {s : Store} {g : Nat → Nat} {order : List Nat}
    (hh : History s g order)
    (hv : ∀ i h c, s.handle i = some h → h.ref_count_ = some c → c < s.counters.length)
    (p v : Nat) :
    History ⟨s.handles, s.counters ++ [some v], s.trace⟩
      (fun c => if c = s.counters.length then p else g c) order := by
  have hlt : ∀ c ∈ order, c < s.counters.length := fun c hc => ((hh.mem c).mp hc).1
  refine ⟨?_, ?_, hh.nodup, ?_⟩
  · intro i h c hi hc
    have := hv i h c hi hc
    rw [if_neg (by omega)]
    exact hh.coh i h c hi hc
  · show s.trace = _
    rw [hh.tr]
    symm
    apply deletesOf_congr
    intro c hc
    have := hlt c hc
    rw [if_neg (by omega)]
  · intro c2
    rw [counter_mk, join_getElem?_push, hh.mem c2]
    by_cases hcc : c2 = s.counters.length
    · subst hcc
      simp
    · simp only [List.length_append, List.length_singleton, if_neg hcc]
      constructor
      · intro h
        exact ⟨by omega, h.2⟩
      · intro h
        exact ⟨by omega, h.2⟩

theorem inv_valid_lt {s : Store} (hinv : Inv s) :
    ∀ i h c, s.handle i = some h → h.ref_count_ = some c → c < s.counters.length := by
  intro i h c hi hc
  obtain ⟨n, hn⟩ := hinv.valid i h c hi hc
  exact counter_lt hn

theorem history_step {s s1 : Store} {op : Op} {g : Nat → Nat} {order : List Nat}
    (hinv : Inv s) (hh : History s g order) (he : Effect s op s1) :
    ∃ order2, History s1 (record g s op) order2 ∧ ∀ c ∈ order, c ∈ order2 := by
  have hv := inv_valid_lt hinv
  have hnull : ∀ h : SharedPtr, some (SharedPtr.mk none none) = some h →
      ∀ c, h.ref_count_ = some c → h.ptr_ = some (g c) := by
    intro h hh2 c hc
    cases hh2
    cases hc
  have hnone : ∀ h : SharedPtr, (none : Option SharedPtr) = some h →
      ∀ c, h.ref_count_ = some c → h.ptr_ = some (g c) := by
    intro h hh2
    cases hh2
  have hcopy : ∀ (b : Nat) (o : SharedPtr), s.handle b = some o →
      ∀ h : SharedPtr, some o = some h →
      ∀ c, h.ref_count_ = some c → h.ptr_ = some (g c) := by
    intro b o hb h hh2 c hc
    cases hh2
    exact hh.coh b _ c hb hc
  cases he with
  | constructNull =>
    have hrec : record g s (Op.construct none) = g := rfl
    rw [hrec]
    exact ⟨order, history_push hh _ hnull, fun c hc => hc⟩
  | constructNew p =>
    have hrec : record g s (Op.construct (some p)) =
        fun c => if c = s.counters.length then p else g c := rfl
    rw [hrec]
    refine ⟨order, history_push (history_alloc hh hv p 1) _ ?_, fun c hc => hc⟩
    intro h hh2 c hc
    cases hh2
    simp only [Option.some.injEq] at hc
    subst hc
    simp
  | copyNull i o hi hc =>
    have hrec : record g s (Op.copyConstruct i) = g := rfl
    rw [hrec]
    exact ⟨order, history_push hh _ (hcopy i o hi), fun c hc => hc⟩
  | copyShared i o c m hi hc hm hlt =>
    have hrec : record g s (Op.copyConstruct i) = g := rfl
    rw [hrec]
    exact ⟨order, history_push (history_counter hh hm (m + 1)) _ (hcopy i o hi),
      fun c hc => hc⟩
  | assignSelf a t ha =>
    have hrec : record g s (Op.assign a a) = g := rfl
    rw [hrec]
    exact ⟨order, hh, fun c hc => hc⟩
  | assignNull a b t o s2 hab ha hb hr hrd hc =>
    have hrec : record g s (Op.assign a b) = g := rfl
    rw [hrec]
    obtain ⟨order2, hh2, hsub⟩ := history_releases hh ha hr
    exact ⟨order2, history_set hh2 a _ (hcopy b o hb), hsub⟩
  | assignShared a b t o s2 c m hab ha hb hr hrd hc hm hlt =>
    have hrec : record g s (Op.assign a b) = g := rfl
    rw [hrec]
    obtain ⟨order2, hh2, hsub⟩ := history_releases hh ha hr
    exact ⟨order2, history_set (history_counter hh2 hm (m + 1)) a _ (hcopy b o hb), hsub⟩
  | reset i t s2 hi hr hrd =>
    have hrec : record g s (Op.reset i) = g := rfl
    rw [hrec]
    obtain ⟨order2, hh2, hsub⟩ := history_releases hh hi hr
    exact ⟨order2, history_set hh2 i _ hnull, hsub⟩
  | resetSame i t hi =>
    have hrec : record g s (Op.resetPtr i t.ptr_) = g := by
      simp [record, adopts, hi]
    rw [hrec]
    exact ⟨order, hh, fun c hc => hc⟩
  | resetNull i t s2 hi hne hr hrd =>
    have hrec : record g s (Op.resetPtr i none) = g := by
      simp [record, adopts, hi]
    rw [hrec]
    obtain ⟨order2, hh2, hsub⟩ := history_releases hh hi hr
    exact ⟨order2, history_set hh2 i _ hnull, hsub⟩
  | resetNew i t s2 p hi hne hr hrd =>
    have hrec : record g s (Op.resetPtr i (some p)) =
        fun c => if c = s.counters.length then p else g c := by
      simp [record, adopts, hi, hne]
    rw [hrec]
    obtain ⟨order2, hh2, hsub⟩ := history_releases hh hi hr
    obtain ⟨hl, hhs⟩ := releases_length hr
    have hv2 : ∀ i h c, s2.handle i = some h → h.ref_count_ = some c →
        c < s2.counters.length := by
      intro j h c hj hc
      rw [hl]
      have hj2 : s.handle j = some h := by
        unfold Store.handle at hj ⊢
        rw [← hhs]
        exact hj
      exact hv j h c hj2 hc
    have ha := history_alloc hh2 hv2 p 1
    rw [hl] at ha
    refine ⟨order2, ?_, hsub⟩
    have hs := history_set ha i (some ⟨some p, some s2.counters.length⟩) ?_
    · exact hs
    · intro h hh3 c hc
      cases hh3
      simp only [Option.some.injEq] at hc
      subst hc
      simp [hl]
  | destroy i t s2 hi hr hrd =>
    have hrec : record g s (Op.destroy i) = g := rfl
    rw [hrec]
    obtain ⟨order2, hh2, hsub⟩ := history_releases hh hi hr
    exact ⟨order2, history_set hh2 i _ hnone, hsub⟩

theorem effect_counters_length {s s1 : Store} {op : Op} (he : Effect s op s1) :
    s1.counters.length =
      s.counters.length + (match adopts s op with | some _ => 1 | none => 0) := by
  cases he with
  | constructNull => rfl
  | constructNew p => simp [adopts]
  | copyNull i o hi hc => rfl
  | copyShared i o c m hi hc hm hlt => simp [adopts]
  | assignSelf a t ha => rfl
  | assignNull a b t o s2 hab ha hb hr hrd hc => simp [adopts, (releases_length hr).1]
  | assignShared a b t o s2 c m hab ha hb hr hrd hc hm hlt =>
    simp [adopts, (releases_length hr).1]
  | reset i t s2 hi hr hrd => simp [adopts, (releases_length hr).1]
  | resetSame i t hi => simp [adopts, hi]
  | resetNull i t s2 hi hne hr hrd => simp [adopts, hi, (releases_length hr).1]
  | resetNew i t s2 p hi hne hr hrd => simp [adopts, hi, hne, (releases_length hr).1]
  | destroy i t s2 hi hr hrd => simp [adopts, (releases_length hr).1]

theorem record_below (g : Nat → Nat) (s : Store) (op : Op) (c : Nat)
    (hc : c < s.counters.length) : record g s op c = g c := by
  unfold record
  cases adopts s op with
  | none => rfl
  | some p =>
    simp only
    rw [if_neg (by omega)]

theorem owned_block {s : Store} {g : Nat → Nat} {order : List Nat} (hinv : Inv s)
    (hh : History s g order) {c : Nat} (hc : c < s.counters.length) :
    owned s (g c) = true := by
  unfold owned
  cases hn : s.counter c with
  | none =>
    have hmem : c ∈ order := (hh.mem c).mpr ⟨hc, hn⟩
    obtain ⟨pre, post, hpp⟩ := deletesOf_split g hmem
    have : Event.deletePointee (g c) ∈ s.trace := by
      rw [hh.tr, hpp]
      simp
    simp [this]
  | some n =>
    have h1 := hinv.count c n hn
    have h2 := hinv.pos c n hn
    have hpos : 0 < s.handles.countP (refersTo c) := by
      unfold owners at h1
      omega
    obtain ⟨e, he, hre⟩ := List.countP_pos_iff.mp hpos
    obtain ⟨j, hj, rfl⟩ := List.getElem_of_mem he
    cases hej : s.handles[j] with
    | none => simp [hej, refersTo] at hre
    | some h =>
      have hhd : s.handle j = some h := by
        unfold Store.handle
        rw [List.getElem?_eq_getElem hj, hej]
        rfl
      rw [hej] at hre
      have hrc : h.ref_count_ = some c := by simpa [refersTo] using hre
      have hp := hh.coh j h c hhd hrc
      have hany : s.handles.any (pointsTo (g c)) = true := by
        rw [List.any_eq_true]
        refine ⟨s.handles[j], List.getElem_mem _, ?_⟩
        rw [hej]
        simp [pointsTo, hp]
      simp [hany]

theorem distinct_alloc {g : Nat → Nat} {n p : Nat} (hd : Distinct g n)
    (hp : ∀ c, c < n → g c ≠ p) :
    Distinct (fun c => if c = n then p else g c) (n + 1) := by
  intro c1 c2 h1 h2 he
  by_cases e1 : c1 = n
  · by_cases e2 : c2 = n
    · omega
    · simp only [if_pos e1, if_neg e2] at he
      exact absurd he.symm (hp c2 (by omega))
  · by_cases e2 : c2 = n
    · simp only [if_neg e1, if_pos e2] at he
      exact absurd he (hp c1 (by omega))
    · simp only [if_neg e1, if_neg e2] at he
      exact hd c1 c2 (by omega) (by omega) he

theorem fresh_step {s s1 : Store} {op : Op} {g : Nat → Nat} {order : List Nat}
    (hinv : Inv s) (hh : History s g order) (hd : Distinct g s.counters.length)
    (hf : freshOp s op = true) (he : Effect s op s1) :
    Distinct (record g s op) s1.counters.length := by
  rw [effect_counters_length he]
  unfold record
  unfold freshOp at hf
  cases ha : adopts s op with
  | none => exact hd
  | some p =>
    rw [ha] at hf
    simp only
    apply distinct_alloc hd
    intro c hc hg
    have := owned_block hinv hh hc
    rw [hg] at this
    simp [this] at hf

theorem history_run {ops : List Op} {s s1 : Store} {g : Nat → Nat} {order : List Nat}
    (hinv : Inv s) (hh : History s g order) (h : run s ops = some s1)
    (hlen : s1.handles.length < sizeModulus) :
    ∃ g2 order2, Inv s1 ∧ History s1 g2 order2 ∧
      s.counters.length ≤ s1.counters.length ∧
      (∀ c, c < s.counters.length → g2 c = g c) ∧ (∀ c ∈ order, c ∈ order2) ∧
      (freshRun s ops = true → Distinct g s.counters.length →
        Distinct g2 s1.counters.length) := by
  induction ops generalizing s g order with
  | nil =>
    simp only [run, Option.some.injEq] at h
    subst h
    exact ⟨g, order, hinv, hh, Nat.le_refl _, fun _ _ => rfl, fun _ hc => hc,
      fun _ hd => hd⟩
  | cons op ops ih =>
    simp only [run] at h
    cases hs : step s op with
    | none => simp [hs] at h
    | some s2 =>
      simp only [hs] at h
      have hl2 : s2.handles.length < sizeModulus := by
        have := run_length h
        omega
      have hinv2 := inv_step hinv hs hl2
      have he := step_effect hinv hs hl2
      obtain ⟨order2, hh2, hsub⟩ := history_step hinv hh he
      obtain ⟨g3, order3, hinv3, hh3, hle, hext, hsub3, hfr⟩ := ih hinv2 hh2 h
      have hle2 : s.counters.length ≤ s2.counters.length := by
        rw [effect_counters_length he]
        omega
      refine ⟨g3, order3, hinv3, hh3, Nat.le_trans hle2 hle, ?_, ?_, ?_⟩
      · intro c hc
        rw [hext c (by omega), record_below g s op c hc]
      · intro c hc
        exact hsub3 c (hsub c hc)
      · intro hf hd
        simp only [freshRun, hs, Bool.and_eq_true] at hf
        exact hfr hf.2 (fresh_step hinv hh hd hf.1 he)

theorem history_empty : History Store.empty (fun _ => 0) [] := by
  refine ⟨?_, rfl, List.nodup_nil, ?_⟩
  · intro i h c hi
    simp [Store.empty, Store.handle] at hi
  · intro c
    simp [Store.empty]

/-! ## No leak -/

theorem owners_pos_of_counter {s : Store} (hinv : Inv s) {c n : Nat}
    (hn : s.counter c = some n) : 1 ≤ owners s c := by
  have h1 := hinv.count c n hn
  have h2 := hinv.pos c n hn
  omega

/-- C11, no leak.  In every store reached from the empty one (fewer than `2 ^ 64` handle
objects), every control block ever allocated is either allocated and referenced by at
least one live handle, or freed with its `delete` directly preceded by the `delete` of a
pointee.  And when a live handle holds pointee `p` with control block `c`, then in every
later store in which no live handle refers to `c` any more, `c` is freed and the trace
contains `delete p` directly followed by `delete c`. -/
theorem no_leak (ops : List Op) (s : Store) (hrun : run Store.empty ops = some s)
    (hlen : s.handles.length < sizeModulus) :
    (∀ c, c < s.counters.length →
      (1 ≤ owners s c ∧ ∃ n, s.counter c = some n) ∨
      (s.counter c = none ∧ ∃ p pre post,
        s.trace = pre ++ [Event.deletePointee p, Event.deleteCounter c] ++ post)) ∧
    (∀ i h p c, s.handle i = some h → h.ptr_ = some p → h.ref_count_ = some c →
      ∀ ops2 s2, run s ops2 = some s2 → s2.handles.length < sizeModulus →
        owners s2 c = 0 →
        s2.counter c = none ∧ c < s2.counters.length ∧ ∃ pre post,
          s2.trace = pre ++ [Event.deletePointee p, Event.deleteCounter c] ++ post) := by
  obtain ⟨g, order, hinv, hh, _, _, _, _⟩ := history_run inv_empty history_empty hrun hlen
  constructor
  · intro c hc
    cases hn : s.counter c with
    | none =>
      right
      refine ⟨rfl, g c, ?_⟩
      rw [hh.tr]
      exact deletesOf_split g ((hh.mem c).mpr ⟨hc, hn⟩)
    | some n => exact Or.inl ⟨owners_pos_of_counter hinv hn, n, rfl⟩
  · intro i h p c hi hp hc ops2 s2 hrun2 hlen2 hown
    obtain ⟨g2, order2, hinv2, hh2, hle, hext, _, _⟩ := history_run hinv hh hrun2 hlen2
    have hclt := inv_valid_lt hinv i h c hi hc
    have hpg : p = g c := by
      have := hh.coh i h c hi hc
      rw [hp] at this
      exact Option.some.inj this
    have hfree : s2.counter c = none := by
      cases hn : s2.counter c with
      | none => rfl
      | some n =>
        have := owners_pos_of_counter hinv2 hn
        omega
    have hclt2 : c < s2.counters.length := by omega
    refine ⟨hfree, hclt2, ?_⟩
    rw [hh2.tr, hpg, ← hext c hclt]
    exact deletesOf_split g2 ((hh2.mem c).mpr ⟨hclt2, hfree⟩)

/-- Witness for C11: pointee 7 with control block 0 is shared by two handles; after one is
reset and the other destroyed, block 0 is freed and `delete 7` precedes `delete` of the
block. -/
theorem no_leak_witness :
    run Store.empty [Op.construct (some 7), Op.copyConstruct 0] =
      some ⟨[some ⟨some 7, some 0⟩, some ⟨some 7, some 0⟩], [some 2], []⟩ ∧
    run ⟨[some ⟨some 7, some 0⟩, some ⟨some 7, some 0⟩], [some 2], []⟩
        [Op.reset 1, Op.destroy 0] =
      some ⟨[none, some ⟨none, none⟩], [none],
        [Event.deletePointee 7, Event.deleteCounter 0]⟩ ∧
    (Store.counter ⟨[none, some ⟨none, none⟩], [none],
        [Event.deletePointee 7, Event.deleteCounter 0]⟩ 0 = none ∧
      0 < (Store.mk [none, some ⟨none, none⟩] [none]
        [Event.deletePointee 7, Event.deleteCounter 0]).counters.length ∧
      ∃ pre post, (Store.mk [none, some ⟨none, none⟩] [none]
        [Event.deletePointee 7, Event.deleteCounter 0]).trace =
          pre ++ [Event.deletePointee 7, Event.deleteCounter 0] ++ post) :=
  ⟨by decide, by decide,
    (no_leak [Op.construct (some 7), Op.copyConstruct 0]
      ⟨[some ⟨some 7, some 0⟩, some ⟨some 7, some 0⟩], [some 2], []⟩ (by decide)
      (by simp [sizeModulus])).2 0 ⟨some 7, some 0⟩ 7 0 rfl rfl rfl
      [Op.reset 1, Op.destroy 0]
      ⟨[none, some ⟨none, none⟩], [none], [Event.deletePointee 7, Event.deleteCounter 0]⟩
      (by decide) (by simp [sizeModulus]) (by decide)⟩

/-! ## Paired pointers and co-owners -/

/-- C15, paired-null invariant.  In every store reached from the empty one by
constructions and public operations (fewer than `2 ^ 64` handle objects), `ptr_` of a live
handle is null if and only if its `ref_count_` is null. -/
theorem paired_null (ops : List Op) (s : Store) (hrun : run Store.empty ops = some s)
    (hlen : s.handles.length < sizeModulus) :
    ∀ i h, s.handle i = some h → (h.ptr_ = none ↔ h.ref_count_ = none) :=
  (inv_run inv_empty hrun hlen).paired

/-- Witness for C15: a handle reset to empty next to a handle constructed from pointee 8. -/
theorem paired_null_witness :
    run Store.empty [Op.construct (some 7), Op.construct (some 8), Op.reset 0] =
      some ⟨[some ⟨none, none⟩, some ⟨some 8, some 1⟩], [none, some 1],
        [Event.deletePointee 7, Event.deleteCounter 0]⟩ ∧
    ((⟨some 8, some 1⟩ : SharedPtr).ptr_ = none ↔
      (⟨some 8, some 1⟩ : SharedPtr).ref_count_ = none) :=
  ⟨by decide,
    paired_null [Op.construct (some 7), Op.construct (some 8), Op.reset 0]
      ⟨[some ⟨none, none⟩, some ⟨some 8, some 1⟩], [none, some 1],
        [Event.deletePointee 7, Event.deleteCounter 0]⟩ (by decide) (by simp [sizeModulus])
      1 ⟨some 8, some 1⟩ rfl⟩

/-- C17, double ownership through raw pointers.  Whatever the store, hence also when `p`
is owned already, the raw-pointer constructor gives the new handle a control block that
was not allocated before, with count 1; so does `reset(p)` on a live handle whose own
pointee is not `p`.  In the sequence construct `H1` from `p`, construct `H2` from `p`,
destroy `H2`, destroy `H1`, both handles report `use_count()` 1 and `delete` is executed
on `p` twice. -/
theorem double_ownership (s : Store) (p : Nat) :
    ((SharedPtr.construct s (some p)).handle s.handles.length =
        some ⟨some p, some s.counters.length⟩ ∧
      s.counter s.counters.length = none ∧
      SharedPtr.use_count (SharedPtr.construct s (some p)) s.handles.length = some 1) ∧
    (∀ i t, s.handle i = some t → some p ≠ t.ptr_ →
      (∀ c, t.ref_count_ = some c → ∃ n, s.counter c = some n) →
      ∃ s2, SharedPtr.resetPtr s i (some p) = some s2 ∧
        s2.handle i = some ⟨some p, some s.counters.length⟩ ∧
        s.counter s.counters.length = none ∧
        SharedPtr.use_count s2 i = some 1) ∧
    (run Store.empty [Op.construct (some p), Op.construct (some p)] =
        some ⟨[some ⟨some p, some 0⟩, some ⟨some p, some 1⟩], [some 1, some 1], []⟩ ∧
      SharedPtr.use_count
        ⟨[some ⟨some p, some 0⟩, some ⟨some p, some 1⟩], [some 1, some 1], []⟩ 0 = some 1 ∧
      SharedPtr.use_count
        ⟨[some ⟨some p, some 0⟩, some ⟨some p, some 1⟩], [some 1, some 1], []⟩ 1 = some 1 ∧
      run Store.empty
          [Op.construct (some p), Op.construct (some p), Op.destroy 1, Op.destroy 0] =
        some ⟨[none, none], [none, none],
          [Event.deletePointee p, Event.deleteCounter 1,
           Event.deletePointee p, Event.deleteCounter 0]⟩ ∧
      deletions ⟨[none, none], [none, none],
          [Event.deletePointee p, Event.deleteCounter 1,
           Event.deletePointee p, Event.deleteCounter 0]⟩ p = 2) := by
  have hfresh : s.counter s.counters.length = none := by
    unfold Store.counter
    rw [List.getElem?_eq_none (Nat.le_refl _)]
    rfl
  refine ⟨⟨?_, hfresh, ?_⟩, ?_, ?_⟩
  · simp only [SharedPtr.construct, Store.newCounter, Store.pushHandle]
    rw [handle_mk, join_getElem?_push, if_pos rfl]
  · have h1 : (SharedPtr.construct s (some p)).handle s.handles.length =
        some ⟨some p, some s.counters.length⟩ := by
      simp only [SharedPtr.construct, Store.newCounter, Store.pushHandle]
      rw [handle_mk, join_getElem?_push, if_pos rfl]
    have h2 : (SharedPtr.construct s (some p)).counter s.counters.length = some 1 := by
      simp only [SharedPtr.construct, Store.newCounter, Store.pushHandle]
      rw [counter_mk, join_getElem?_push, if_pos rfl, one_mod_sizeModulus]
    simp only [SharedPtr.use_count, h1, h2]
  · intro i t hi hne hv
    obtain ⟨s1, hr, hh, hcl, _⟩ := release_of_valid hv
    have hil : i < s1.handles.length := by
      rw [hh]
      exact handle_lt hi
    have hl : s1.counters.length = s.counters.length := by
      cases hc : t.ref_count_ with
      | none =>
        rw [release_empty t s hc, Option.some.injEq] at hr
        rw [← hr]
      | some c =>
        obtain ⟨n, hn⟩ := hv c hc
        by_cases h1 : n = 1
        · subst h1
          rw [release_last t s c hc hn, Option.some.injEq] at hr
          rw [← hr]
          simp
        · rw [release_shared t s c n hc hn h1, Option.some.injEq] at hr
          rw [← hr]
          simp
    have hres : SharedPtr.resetPtr s i (some p) =
        some ⟨s1.handles.set i (some ⟨some p, some s1.counters.length⟩),
          s1.counters ++ [some (1 % sizeModulus)], s1.trace⟩ := by
      simp [SharedPtr.resetPtr, hi, hne, hr, Store.setHandle, Store.newCounter]
    have hself : (Store.mk (s1.handles.set i (some ⟨some p, some s1.counters.length⟩))
        (s1.counters ++ [some (1 % sizeModulus)]) s1.trace).handle i =
        some ⟨some p, some s1.counters.length⟩ := by
      rw [handle_mk, join_getElem?_set _ _ _ _ hil, if_pos rfl]
    refine ⟨_, hres, ?_, hfresh, ?_⟩
    · rw [hself, hl]
    · simp only [SharedPtr.use_count, hself]
      rw [counter_mk, join_getElem?_push, if_pos rfl, one_mod_sizeModulus]
  · refine ⟨rfl, rfl, rfl, rfl, ?_⟩
    simp [deletions, List.count_cons]

/-- Witness for C17: pointee 7 in the empty store, and `reset(7)` on an empty handle next
to a handle that owns 7 already. -/
theorem double_ownership_witness :
    deletions ⟨[none, none], [none, none],
        [Event.deletePointee 7, Event.deleteCounter 1,
         Event.deletePointee 7, Event.deleteCounter 0]⟩ 7 = 2 ∧
    ∃ s2, SharedPtr.resetPtr ⟨[some ⟨some 7, some 0⟩, some ⟨none, none⟩], [some 1], []⟩ 1
        (some 7) = some s2 ∧
      s2.handle 1 = some ⟨some 7, some 1⟩ ∧
      (Store.mk [some ⟨some 7, some 0⟩, some ⟨none, none⟩] [some 1] []).counter 1 = none ∧
      SharedPtr.use_count s2 1 = some 1 :=
  ⟨(double_ownership Store.empty 7).2.2.2.2.2.2,
    (double_ownership ⟨[some ⟨some 7, some 0⟩, some ⟨none, none⟩], [some 1], []⟩ 7).2.1
      1 ⟨none, none⟩ rfl (by decide) (fun c hc => by cases hc)⟩

theorem getElem_of_counter {s : Store} {c n : Nat} (hc : s.counter c = some n)
    (hlt : c < s.counters.length) : s.counters[c] = some n := by
  unfold Store.counter at hc
  rw [List.getElem?_eq_getElem hlt] at hc
  simpa using hc

/-- C18, assignment between co-owners.  In every store reached from the empty one (fewer
than `2 ^ 64` handle objects), for two distinct live handles `a` and `b` on the same
control block `c`, the counter `n` of `c` is at least 2, the `release()` inside `a = b`
only lowers it to `n - 1`, and `a = b` returns the store unchanged: every handle, every
counter and the trace of deletes are what they were. -/
theorem assign_coowners (ops : List Op) (s : Store) (hrun : run Store.empty ops = some s)
    (hlen : s.handles.length < sizeModulus) (a b : Nat) (ta tb : SharedPtr) (c : Nat)
    (hab : a ≠ b) (ha : s.handle a = some ta) (hb : s.handle b = some tb)
    (hca : ta.ref_count_ = some c) (hcb : tb.ref_count_ = some c) :
    SharedPtr.assign s a b = some s ∧
    ∃ n, s.counter c = some n ∧ 2 ≤ n ∧
      ta.release s = some ⟨s.handles, s.counters.set c (some (n - 1)), s.trace⟩ := by
  obtain ⟨g, order, hinv, hh, _, _, _, _⟩ := history_run inv_empty history_empty hrun hlen
  have hpa := hh.coh a ta c ha hca
  have hpb := hh.coh b tb c hb hcb
  have heq : ta = tb := by
    cases ta
    cases tb
    simp_all
  obtain ⟨s1, hr, hrs, hrd, hhs⟩ := releases_of_inv hinv ha
  have hba : b ≠ a := fun e => hab e.symm
  have hb1 : s1.handle b = some tb := by
    unfold Store.handle
    rw [hhs]
    exact hb
  obtain ⟨m, hm⟩ := hrd.valid b tb c hba hb1 hcb
  cases hrs with
  | empty hc =>
    rw [hca] at hc
    cases hc
  | shared c2 n hc hn h2 =>
    have hcc : c2 = c := by
      rw [hca] at hc
      exact (Option.some.inj hc).symm
    subst hcc
    have hclt := counter_lt hn
    have hlt := hinv.lt c2 n hn
    have hm1 : (Store.mk s.handles (s.counters.set c2 (some (n - 1))) s.trace).counter c2
        = some (n - 1) := by
      rw [counter_mk, join_getElem?_set _ _ _ _ hclt, if_pos rfl]
    refine ⟨?_, n, hn, h2, hr⟩
    rw [assign_shared hab ha hb hr hcb hm1]
    have hn1 : (n - 1 + 1) % sizeModulus = n := by
      have : n - 1 + 1 = n := by omega
      rw [this]
      exact Nat.mod_eq_of_lt hlt
    have hal := handle_lt ha
    have hga := getElem_of_handle ha hal
    have hgc := getElem_of_counter hn hclt
    simp only [hn1, List.set_set]
    rw [← heq, ← hga, set_getElem_same, ← hgc, set_getElem_same]
  | last p c2 hp hc hn =>
    have hcc : c2 = c := by
      rw [hca] at hc
      exact (Option.some.inj hc).symm
    subst hcc
    have hclt := counter_lt hn
    rw [counter_mk, join_getElem?_set _ _ _ _ hclt, if_pos rfl] at hm
    cases hm

/-- Witness for C18: handle 1 is a copy of handle 0; assigning handle 0 to handle 1
changes nothing. -/
theorem assign_coowners_witness :
    run Store.empty [Op.construct (some 7), Op.copyConstruct 0] =
      some ⟨[some ⟨some 7, some 0⟩, some ⟨some 7, some 0⟩], [some 2], []⟩ ∧
    SharedPtr.assign ⟨[some ⟨some 7, some 0⟩, some ⟨some 7, some 0⟩], [some 2], []⟩ 1 0 =
      some ⟨[some ⟨some 7, some 0⟩, some ⟨some 7, some 0⟩], [some 2], []⟩ :=
  ⟨by decide,
    (assign_coowners [Op.construct (some 7), Op.copyConstruct 0]
      ⟨[some ⟨some 7, some 0⟩, some ⟨some 7, some 0⟩], [some 2], []⟩ (by decide)
      (by simp [sizeModulus]) 1 0 ⟨some 7, some 0⟩ ⟨some 7, some 0⟩ 0 (by decide)
      rfl rfl rfl rfl).1⟩

/-- C19, `reset(nullptr)` and `reset()`.  For a live handle whose `ptr_` is null only
together with `ref_count_` (empty or not, sole owner or co-owner), `reset(P)` with a null
`P` and `reset()` have the same result: the same store, or both undefined.  When the
control block, if any, is allocated both are defined and leave `(null, null)` in the
handle. -/
theorem reset_null_eq_reset (s : Store) (i : Nat) (t : SharedPtr)
    (hi : s.handle i = some t) (hp : t.ptr_ = none → t.ref_count_ = none) :
    SharedPtr.resetPtr s i none = SharedPtr.reset s i ∧
    ((∀ c, t.ref_count_ = some c → ∃ n, s.counter c = some n) →
      ∃ s2, SharedPtr.reset s i = some s2 ∧ SharedPtr.resetPtr s i none = some s2 ∧
        s2.handle i = some ⟨none, none⟩) := by
  have heq : SharedPtr.resetPtr s i none = SharedPtr.reset s i := by
    cases hpt : t.ptr_ with
    | none =>
      have hrc := hp hpt
      have ht : t = ⟨none, none⟩ := by
        cases t
        simp_all
      subst ht
      have hget := getElem_of_handle hi (handle_lt hi)
      have hrel : SharedPtr.release ⟨none, none⟩ s = some s := release_empty _ s rfl
      simp only [SharedPtr.resetPtr, SharedPtr.reset, hi, hrel, Store.setHandle]
      simp only [ne_eq, not_true_eq_false, if_false, Option.some.injEq]
      rw [← hget, set_getElem_same]
    | some p =>
      simp only [SharedPtr.resetPtr, SharedPtr.reset, hi, hpt]
      cases t.release s <;> simp
  refine ⟨heq, ?_⟩
  intro hv
  obtain ⟨s1, hr, hh, _, _⟩ := release_of_valid hv
  have hil : i < s1.handles.length := by
    rw [hh]
    exact handle_lt hi
  have hres : SharedPtr.reset s i = some (s1.setHandle i ⟨none, none⟩) := by
    simp [SharedPtr.reset, hi, hr]
  refine ⟨_, hres, heq.trans hres, ?_⟩
  simp only [Store.setHandle]
  rw [handle_mk, join_getElem?_set _ _ _ _ hil, if_pos rfl]

/-- Witness for C19: the sole owner of pointee 7. -/
theorem reset_null_eq_reset_witness :
    SharedPtr.resetPtr ⟨[some ⟨some 7, some 0⟩], [some 1], []⟩ 0 none =
      SharedPtr.reset ⟨[some ⟨some 7, some 0⟩], [some 1], []⟩ 0 :=
  (reset_null_eq_reset ⟨[some ⟨some 7, some 0⟩], [some 1], []⟩ 0 ⟨some 7, some 0⟩ rfl
    (fun h => by cases h)).1

/-! ## Reading the tables after a write, continued -/

theorem handle_set_ne (hs : List (Option SharedPtr)) (cs : List (Option Nat))
    (tr : List Event) (i j : Nat) (e : Option SharedPtr) (h : j ≠ i) :
    (Store.mk (hs.set i e) cs tr).handle j = (hs[j]?).join := by
  rw [handle_mk, List.getElem?_set_ne (fun e => h e.symm)]

theorem handle_push_of_some {s : Store} {j : Nat} {h : SharedPtr} (hj : s.handle j = some h)
    (e : Option SharedPtr) (cs : List (Option Nat)) (tr : List Event) :
    (Store.mk (s.handles ++ [e]) cs tr).handle j = some h := by
  have := handle_lt hj
  rw [handle_mk, join_getElem?_push, if_neg (by omega)]
  exact hj

theorem counter_set_ne (hs : List (Option SharedPtr)) (cs : List (Option Nat))
    (tr : List Event) (c c2 : Nat) (v : Option Nat) (h : c2 ≠ c) :
    (Store.mk hs (cs.set c v) tr).counter c2 = (cs[c2]?).join := by
  rw [counter_mk, List.getElem?_set_ne (fun e => h e.symm)]

theorem counter_push_ne (hs : List (Option SharedPtr)) (cs : List (Option Nat))
    (tr : List Event) (c2 : Nat) (v : Option Nat) (h : c2 ≠ cs.length) :
    (Store.mk hs (cs ++ [v]) tr).counter c2 = (cs[c2]?).join := by
  rw [counter_mk, join_getElem?_push, if_neg h]

theorem releases_frame {s s1 : Store} {t : SharedPtr} (hr : Releases s t s1) (c : Nat)
    (hc : t.ref_count_ ≠ some c) :
    s1.counter c = s.counter c ∧
      (Event.deleteCounter c ∈ s1.trace ↔ Event.deleteCounter c ∈ s.trace) := by
  cases hr with
  | empty _ => exact ⟨rfl, Iff.rfl⟩
  | shared c2 n hc2 hn h2 =>
    have hne : c ≠ c2 := by
      intro e
      apply hc
      rw [e, hc2]
    exact ⟨counter_set_ne _ _ _ _ _ _ hne, Iff.rfl⟩
  | last p c2 hp hc2 hn =>
    have hne : c ≠ c2 := by
      intro e
      apply hc
      rw [e, hc2]
    refine ⟨counter_set_ne _ _ _ _ _ _ hne, ?_⟩
    simp [hne]

/-! ## Threads releasing one control block -/

theorem fetch_sub_eq {s : Store} {c n : Nat} (hn : s.counter c = some n) (h1 : 1 ≤ n)
    (hlt : n < sizeModulus) :
    s.fetch_sub c = some (n, ⟨s.handles, s.counters.set c (some (n - 1)), s.trace⟩) := by
  simp [Store.fetch_sub, hn, sub_one_mod_sizeModulus n h1 hlt]

theorem fetchSubs_spec (c : Nat) (sched : List Nat) :
    ∀ (s : Store) (n : Nat), s.counter c = some n → n < sizeModulus → sched.length ≤ n →
      ∃ obs s2, fetchSubs s c sched = some (obs, s2) ∧ obs.length = sched.length ∧
        ∀ j th pre, obs[j]? = some (th, pre) → sched[j]? = some th ∧ pre = n - j := by
  induction sched with
  | nil =>
    intro s n _ _ _
    exact ⟨[], s, rfl, rfl, fun j th pre h => by simp at h⟩
  | cons th0 rest ih =>
    intro s n hn hlt hle
    simp only [List.length_cons] at hle
    have hclt := counter_lt hn
    have hn1 : (Store.mk s.handles (s.counters.set c (some (n - 1))) s.trace).counter c
        = some (n - 1) := by
      rw [counter_mk, join_getElem?_set _ _ _ _ hclt, if_pos rfl]
    obtain ⟨obs, s2, hf, hl, hobs⟩ := ih _ (n - 1) hn1 (by omega) (by omega)
    refine ⟨(th0, n) :: obs, s2, ?_, by simp [hl], ?_⟩
    · simp [fetchSubs, fetch_sub_eq hn (by omega) hlt, hf]
    · intro j th pre hj
      cases j with
      | zero =>
        simp only [List.getElem?_cons_zero, Option.some.injEq, Prod.mk.injEq] at hj
        simp [hj.1, hj.2]
      | succ k =>
        simp only [List.getElem?_cons_succ] at hj
        obtain ⟨h1, h2⟩ := hobs k th pre hj
        have hk : k < obs.length := by
          by_contra hlt2
          rw [List.getElem?_eq_none (by omega)] at hj
          cases hj
        refine ⟨by simpa using h1, ?_⟩
        omega

theorem releaseAll_spec (c p : Nat) (ts : List SharedPtr) :
    ∀ (s : Store) (n : Nat), s.counter c = some n → n < sizeModulus → ts.length ≤ n →
      (∀ t ∈ ts, t.ptr_ = some p ∧ t.ref_count_ = some c) →
      ∃ s1, releaseAll s ts = some s1 ∧
        (ts.length < n → s1.trace = s.trace ∧ s1.counter c = some (n - ts.length)) ∧
        (ts.length = n → 1 ≤ n →
          s1.trace = s.trace ++ [Event.deletePointee p, Event.deleteCounter c] ∧
          s1.counter c = none) := by
  induction ts with
  | nil =>
    intro s n hn _ _ _
    refine ⟨s, rfl, fun _ => ⟨rfl, by simpa using hn⟩, ?_⟩
    intro h0 h1
    simp only [List.length_nil] at h0
    omega
  | cons t rest ih =>
    intro s n hn hlt hle hall
    simp only [List.length_cons] at hle
    obtain ⟨hp, hc⟩ := hall t (List.mem_cons_self _ _)
    have hrest : ∀ t ∈ rest, t.ptr_ = some p ∧ t.ref_count_ = some c :=
      fun x hx => hall x (List.mem_cons_of_mem _ hx)
    have hclt := counter_lt hn
    by_cases h1 : n = 1
    · subst h1
      have hnil : rest = [] := List.eq_nil_of_length_eq_zero (by omega)
      subst hnil
      refine ⟨⟨s.handles, s.counters.set c none,
        (s.deletePointee t.ptr_).trace ++ [Event.deleteCounter c]⟩, ?_, ?_, ?_⟩
      · simp only [releaseAll, release_last t s c hc hn]
      · intro h
        simp at h
      · intro _ _
        refine ⟨by simp [Store.deletePointee, hp], ?_⟩
        rw [counter_mk, join_getElem?_set _ _ _ _ hclt, if_pos rfl]
    · have hn1 : (Store.mk s.handles (s.counters.set c (some (n - 1))) s.trace).counter c
          = some (n - 1) := by
        rw [counter_mk, join_getElem?_set _ _ _ _ hclt, if_pos rfl]
      obtain ⟨s1, hr, hlow, hall2⟩ := ih _ (n - 1) hn1 (by omega) (by omega) hrest
      have hrel : t.release s =
          some ⟨s.handles, s.counters.set c (some (n - 1)), s.trace⟩ := by
        rw [release_shared t s c n hc hn h1, sub_one_mod_sizeModulus n (by omega) hlt]
      refine ⟨s1, ?_, ?_, ?_⟩
      · simp only [releaseAll, hrel, hr]
      · intro hl
        simp only [List.length_cons] at hl
        obtain ⟨h2, h3⟩ := hlow (by omega)
        refine ⟨h2, ?_⟩
        rw [h3]
        simp only [List.length_cons, Option.some.injEq]
        omega
      · intro hl _
        simp only [List.length_cons] at hl
        exact hall2 (by omega) (by omega)

/-- C13, unique last owner.  For a control block `c` with counter `n ≥ 1` (a `size_t`
value) and `n` threads that each run `release()` on a handle on `c`, take the atomic
`fetch_sub` steps in any order `sched`: the `j`-th step observes the value `n - j`, so
exactly the last one observes 1.  Accordingly the `release()` calls of any `k < n` of the
owners execute no `delete`, and the calls of all `n` execute `delete` on the pointee and
on the control block once. -/
theorem unique_last_owner (s : Store) (c p n : Nat) (sched : List Nat)
    (ts : List SharedPtr) (hn : s.counter c = some n) (h1 : 1 ≤ n) (hlt : n < sizeModulus)
    (hs : sched.length = n) (hts : ts.length = n)
    (hall : ∀ t ∈ ts, t.ptr_ = some p ∧ t.ref_count_ = some c) :
    (∃ obs s2, fetchSubs s c sched = some (obs, s2) ∧ obs.length = n ∧
      ∀ j th pre, obs[j]? = some (th, pre) →
        sched[j]? = some th ∧ pre = n - j ∧ (pre = 1 ↔ j + 1 = n)) ∧
    (∀ k, k < n → ∃ s1, releaseAll s (ts.take k) = some s1 ∧ s1.trace = s.trace ∧
      s1.counter c = some (n - k)) ∧
    (∃ s2, releaseAll s ts = some s2 ∧
      s2.trace = s.trace ++ [Event.deletePointee p, Event.deleteCounter c] ∧
      s2.counter c = none) := by
  refine ⟨?_, ?_, ?_⟩
  · obtain ⟨obs, s2, hf, hl, hobs⟩ := fetchSubs_spec c sched s n hn hlt (by omega)
    refine ⟨obs, s2, hf, by omega, ?_⟩
    intro j th pre hj
    obtain ⟨h2, h3⟩ := hobs j th pre hj
    have hjl : j < obs.length := by
      by_contra hge
      rw [List.getElem?_eq_none (by omega)] at hj
      cases hj
    refine ⟨h2, h3, ?_⟩
    omega
  · intro k hk
    have hlen : (ts.take k).length = k := by
      rw [List.length_take]
      omega
    obtain ⟨s1, hr, hlow, _⟩ := releaseAll_spec c p (ts.take k) s n hn hlt (by omega)
      (fun t ht => hall t (List.mem_of_mem_take ht))
    obtain ⟨h2, h3⟩ := hlow (by omega)
    rw [hlen] at h3
    exact ⟨s1, hr, h2, h3⟩
  · obtain ⟨s2, hr, _, hfin⟩ := releaseAll_spec c p ts s n hn hlt (by omega) hall
    obtain ⟨h2, h3⟩ := hfin hts h1
    exact ⟨s2, hr, h2, h3⟩

/-- Witness for C13: three owners of pointee 7; threads 2, 0, 1 decrement in this order
and observe 3, 2, 1. -/
theorem unique_last_owner_witness :
    (∃ obs s2, fetchSubs ⟨[some ⟨some 7, some 0⟩, some ⟨some 7, some 0⟩,
        some ⟨some 7, some 0⟩], [some 3], []⟩ 0 [2, 0, 1] = some (obs, s2) ∧
      obs.length = 3 ∧
      ∀ j th pre, obs[j]? = some (th, pre) →
        [2, 0, 1][j]? = some th ∧ pre = 3 - j ∧ (pre = 1 ↔ j + 1 = 3)) ∧
    (∀ k, k < 3 → ∃ s1, releaseAll ⟨[some ⟨some 7, some 0⟩, some ⟨some 7, some 0⟩,
        some ⟨some 7, some 0⟩], [some 3], []⟩
        (List.take k [⟨some 7, some 0⟩, ⟨some 7, some 0⟩, ⟨some 7, some 0⟩]) = some s1 ∧
      s1.trace = [] ∧ s1.counter 0 = some (3 - k)) ∧
    (∃ s2, releaseAll ⟨[some ⟨some 7, some 0⟩, some ⟨some 7, some 0⟩,
        some ⟨some 7, some 0⟩], [some 3], []⟩
        [⟨some 7, some 0⟩, ⟨some 7, some 0⟩, ⟨some 7, some 0⟩] = some s2 ∧
      s2.trace = [] ++ [Event.deletePointee 7, Event.deleteCounter 0] ∧
      s2.counter 0 = none) :=
  unique_last_owner ⟨[some ⟨some 7, some 0⟩, some ⟨some 7, some 0⟩,
      some ⟨some 7, some 0⟩], [some 3], []⟩ 0 7 3 [2, 0, 1]
    [⟨some 7, some 0⟩, ⟨some 7, some 0⟩, ⟨some 7, some 0⟩] rfl (by decide)
    (by simp [sizeModulus]) rfl rfl
    (fun t ht => by
      simp only [List.mem_cons, List.mem_singleton, List.not_mem_nil, or_false, or_self]
        at ht
      subst ht
      exact ⟨rfl, rfl⟩)

/-! ## Pointees without handle members: the two sets of operations agree -/

theorem destroyAll_nil (members : Nat → List Nat) (fuel : Nat) (s : Store) :
    Nested.destroyAll members fuel s [] = some s := by
  cases fuel <;> rfl

theorem handle_of_release {t : SharedPtr} {s s1 : Store} (hr : t.release s = some s1)
    (j : Nat) : s1.handle j = s.handle j := by
  unfold Store.handle
  rw [release_handles hr]

theorem releaseWith_flat (fuel : Nat) (s : Store) (this : Nat) :
    Nested.releaseWith (fun _ => []) (Nested.destroyAll (fun _ => []) fuel) s this =
      match s.handle this with
      | none => none
      | some t => t.release s := by
  unfold Nested.releaseWith
  cases hi : s.handle this with
  | none => rfl
  | some t =>
    simp only
    cases hc : t.ref_count_ with
    | none => simp [SharedPtr.release, hc]
    | some c =>
      cases hn : s.counter c with
      | none => simp [SharedPtr.release, hc, Store.fetch_sub, hn]
      | some n =>
        by_cases h1 : n = 1
        · subst h1
          have hi2 : ∀ cs tr, (Store.mk s.handles cs tr).handle this = some t :=
            fun _ _ => hi
          cases hp : t.ptr_ with
          | none =>
            simp [SharedPtr.release, hc, Store.fetch_sub, hn, Nested.deleteWith, hp, hi2,
              Store.deletePointee]
          | some p =>
            simp [SharedPtr.release, hc, Store.fetch_sub, hn, Nested.deleteWith, hp, hi2,
              Store.deletePointee, destroyAll_nil]
        · simp [SharedPtr.release, hc, Store.fetch_sub, hn, h1]

theorem release_flat (s : Store) (this : Nat) (t : SharedPtr) (hi : s.handle this = some t) :
    Nested.release (fun _ => []) s this = t.release s := by
  unfold Nested.release
  rw [releaseWith_flat, hi]

/-- For a pointee type without `SharedPtr` members every operation of this section is the
operation of the same name of the first section. -/
theorem step_flat (s : Store) (op : Op) : Nested.step (fun _ => []) s op = step s op := by
  cases op with
  | construct ptr => rfl
  | copyConstruct other => rfl
  | assign this other =>
    simp only [Nested.step, step, Nested.assign, SharedPtr.assign]
    cases ht : s.handle this with
    | none => rfl
    | some t =>
      cases ho : s.handle other with
      | none => rfl
      | some o =>
        simp only
        by_cases hne : this = other
        · simp [hne]
        · simp only [ne_eq, hne, not_false_eq_true, if_true]
          rw [release_flat s this t ht]
          cases hr : t.release s with
          | none => rfl
          | some s1 =>
            simp only [handle_of_release hr, ht, ho]
  | reset this =>
    simp only [Nested.step, step, Nested.reset, SharedPtr.reset, Nested.release]
    rw [releaseWith_flat]
    cases ht : s.handle this with
    | none => rfl
    | some t =>
      simp only
      cases hr : t.release s with
      | none => rfl
      | some s1 => simp only [handle_of_release hr, ht]
  | resetPtr this ptr =>
    simp only [Nested.step, step, Nested.resetPtr, SharedPtr.resetPtr]
    cases ht : s.handle this with
    | none => rfl
    | some t =>
      simp only
      by_cases hne : ptr = t.ptr_
      · simp [hne]
      · simp only [ne_eq, hne, not_false_eq_true, if_true]
        rw [release_flat s this t ht]
        cases hr : t.release s with
        | none => rfl
        | some s1 => simp only [handle_of_release hr, ht]
  | destroy this =>
    simp only [Nested.step, step, Nested.destroy, SharedPtr.destroy, Nested.release]
    rw [releaseWith_flat]
    cases ht : s.handle this with
    | none => rfl
    | some t => rfl

theorem run_flat (ops : List Op) (s : Store) :
    Nested.run (fun _ => []) s ops = run s ops := by
  induction ops generalizing s with
  | nil => rfl
  | cons op ops ih =>
    simp only [Nested.run, run, step_flat]
    cases step s op with
    | none => rfl
    | some s1 => exact ih s1

/-! ## What a cascade of destructions may change -/

theorem cascade_refl (members : Nat → List Nat) (L B : Nat → Prop) (s : Store) :
    Cascade members L B [] s s :=
  ⟨rfl, by simp, fun _ => Or.inl rfl,
    fun j h hj hn => absurd (hj.symm.trans hn) (by simp),
    fun _ _ _ => ⟨rfl, by simp⟩⟩

theorem cascade_trans {members : Nat → List Nat} {L B : Nat → Prop} {e1 e2 : List Event}
    {s sa s1 : Store} (h1 : Cascade members L B e1 s sa) (h2 : Cascade members L B e2 sa s1) :
    Cascade members L B (e1 ++ e2) s s1 := by
  have hfade : ∀ j, s1.handle j = s.handle j ∨ s1.handle j = none := by
    intro j
    rcases h2.fade j with h | h
    · rcases h1.fade j with h3 | h3
      · exact Or.inl (h.trans h3)
      · exact Or.inr (h.trans h3)
    · exact Or.inr h
  refine ⟨h2.len.trans h1.len, ?_, hfade, ?_, ?_⟩
  · rw [h2.tr, h1.tr, List.append_assoc]
  · intro j h hj hn
    rcases h1.fade j with h3 | h3
    · rcases h2.gone j h (h3.trans hj) hn with h4 | ⟨p, hp, hm⟩
      · exact Or.inl h4
      · exact Or.inr ⟨p, hp, List.mem_append_right _ hm⟩
    · rcases h1.gone j h hj h3 with h4 | ⟨p, hp, hm⟩
      · exact Or.inl h4
      · exact Or.inr ⟨p, hp, List.mem_append_left _ hm⟩
  · intro c hB hun
    have hun1 : ∀ j h, s.handle j = some h → sa.handle j = none →
        h.ref_count_ ≠ some c := by
      intro j h hj hn
      apply hun j h hj
      rcases h2.fade j with h3 | h3
      · exact h3.trans hn
      · exact h3
    have hun2 : ∀ j h, sa.handle j = some h → s1.handle j = none →
        h.ref_count_ ≠ some c := by
      intro j h hj hn
      apply hun j h _ hn
      rcases h1.fade j with h3 | h3
      · exact h3.symm.trans hj
      · rw [h3] at hj
        cases hj
    obtain ⟨k1, n1⟩ := h1.keep c hB hun1
    obtain ⟨k2, n2⟩ := h2.keep c hB hun2
    refine ⟨k2.trans k1, ?_⟩
    intro hm
    rcases List.mem_append.mp hm with h | h
    · exact n1 h
    · exact n2 h

theorem cascade_mono {members : Nat → List Nat} {L L2 B B2 : Nat → Prop} {evs : List Event}
    {s s1 : Store} (hL : ∀ j, L j → L2 j) (hB : ∀ c, B c → B2 c)
    (h : Cascade members L B evs s s1) : Cascade members L2 B2 evs s s1 := by
  refine ⟨h.len, h.tr, h.fade, ?_, ?_⟩
  · intro j x hj hn
    rcases h.gone j x hj hn with h4 | h4
    · exact Or.inl (hL j h4)
    · exact Or.inr h4
  · intro c hc hun
    exact h.keep c (fun hb => hc (hB c hb)) hun

theorem cascade_counter (members : Nat → List Nat) (s : Store) (c0 : Nat) (v : Option Nat) :
    Cascade members (fun _ => False) (fun c => c = c0) []
      s ⟨s.handles, s.counters.set c0 v, s.trace⟩ := by
  refine ⟨rfl, by simp, fun _ => Or.inl rfl, ?_, ?_⟩
  · intro j h hj hn
    have : s.handle j = none := hn
    rw [hj] at this
    cases this
  · intro c hc _
    exact ⟨counter_set_ne _ _ _ _ _ _ hc, by simp⟩

theorem cascade_deleteCounter (members : Nat → List Nat) (s : Store) (c0 : Nat) :
    Cascade members (fun _ => False) (fun c => c = c0) [Event.deleteCounter c0]
      s (s.deleteCounter c0) := by
  refine ⟨rfl, rfl, fun _ => Or.inl rfl, ?_, ?_⟩
  · intro j h hj hn
    have : s.handle j = none := hn
    rw [hj] at this
    cases this
  · intro c hc _
    refine ⟨counter_set_ne _ _ _ _ _ _ hc, ?_⟩
    simp only [List.mem_singleton, Event.deleteCounter.injEq]
    exact hc

theorem cascade_kill (members : Nat → List Nat) (s : Store) (i : Nat) :
    Cascade members (fun j => j = i) (fun _ => False) []
      s ⟨s.handles.set i none, s.counters, s.trace⟩ := by
  refine ⟨by simp, by simp, ?_, ?_, fun _ _ _ => ⟨rfl, by simp⟩⟩
  · intro j
    by_cases hj : j = i
    · subst hj
      right
      rw [handle_mk, List.getElem?_set]
      simp only [if_true]
      split <;> rfl
    · left
      rw [handle_set_ne _ _ _ _ _ _ hj]
      rfl
  · intro j h hj hn
    by_cases hji : j = i
    · exact Or.inl hji
    · rw [handle_set_ne _ _ _ _ _ _ hji] at hn
      have : s.handle j = none := hn
      rw [hj] at this
      cases this

theorem deleteWith_cascade {members : Nat → List Nat}
    {kill : Store → List Nat → Option Store}
    (hk : ∀ s l s1, kill s l = some s1 →
      ∃ evs, Cascade members (fun j => j ∈ l) (fun _ => False) evs s s1)
    {s s2 : Store} {p : Option Nat} (h : Nested.deleteWith members kill s p = some s2) :
    ∃ evs, Cascade members (fun _ => False) (fun _ => False) evs s s2 := by
  unfold Nested.deleteWith at h
  cases p with
  | none =>
    simp only [Option.some.injEq] at h
    subst h
    exact ⟨[], cascade_refl _ _ _ _⟩
  | some a =>
    simp only at h
    cases hkl : kill s (members a) with
    | none => simp [hkl] at h
    | some sk =>
      simp only [hkl, Option.some.injEq] at h
      subst h
      obtain ⟨evs, hc⟩ := hk s (members a) sk hkl
      refine ⟨evs ++ [Event.deletePointee a], hc.len, ?_, hc.fade, ?_, ?_⟩
      · show sk.trace ++ _ = _
        rw [hc.tr, List.append_assoc]
      · intro j x hj hn
        rcases hc.gone j x hj hn with h4 | ⟨q, hq, hm⟩
        · exact Or.inr ⟨a, h4, by simp⟩
        · exact Or.inr ⟨q, hq, List.mem_append_left _ hm⟩
      · intro c hB hun
        obtain ⟨k1, n1⟩ := hc.keep c hB hun
        refine ⟨k1, ?_⟩
        intro hm
        rcases List.mem_append.mp hm with h | h
        · exact n1 h
        · simp at h

theorem releaseWith_cascade {members : Nat → List Nat}
    {kill : Store → List Nat → Option Store}
    (hk : ∀ s l s1, kill s l = some s1 →
      ∃ evs, Cascade members (fun j => j ∈ l) (fun _ => False) evs s s1)
    {s s1 : Store} {this : Nat} {t : SharedPtr} (hi : s.handle this = some t)
    (h : Nested.releaseWith members kill s this = some s1) :
    ∃ evs, Cascade members (fun _ => False) (fun c => t.ref_count_ = some c) evs s s1 := by
  unfold Nested.releaseWith at h
  rw [hi] at h
  simp only at h
  cases hc : t.ref_count_ with
  | none =>
    rw [hc] at h
    simp only [Option.some.injEq] at h
    subst h
    exact ⟨[], cascade_refl _ _ _ _⟩
  | some c =>
    rw [hc] at h
    simp only at h
    have hB : ∀ c2, c2 = c → some c = some c2 := fun c2 e => by rw [e]
    cases hn : s.counter c with
    | none => simp [Store.fetch_sub, hn] at h
    | some n =>
      simp only [Store.fetch_sub, hn] at h
      generalize (n + sizeModulus - 1) % sizeModulus = v at h
      have hA : Cascade members (fun _ => False) (fun c2 => some c = some c2) []
          s ⟨s.handles, s.counters.set c (some v), s.trace⟩ :=
        cascade_mono (fun _ x => x) hB (cascade_counter members s c (some v))
      by_cases h1 : n = 1
      · simp only [h1, if_true] at h
        cases hd : Nested.deleteWith members kill
            ⟨s.handles, s.counters.set c (some v), s.trace⟩ t.ptr_ with
        | none => simp [hd] at h
        | some s2 =>
          simp only [hd] at h
          obtain ⟨e2, hD⟩ := deleteWith_cascade hk hd
          have hD2 : Cascade members (fun _ => False) (fun c2 => some c = some c2) e2
              ⟨s.handles, s.counters.set c (some v), s.trace⟩ s2 :=
            cascade_mono (fun _ x => x) (fun _ x => False.elim x) hD
          have hAD := cascade_trans hA hD2
          cases h2 : s2.handle this with
          | none => simp [h2] at h
          | some x =>
            have hx : x = t := by
              rcases hAD.fade this with h3 | h3
              · rw [h2, hi] at h3
                exact Option.some.inj h3
              · rw [h2] at h3
                cases h3
            subst hx
            simp only [h2, hc, Option.some.injEq] at h
            subst h
            have hE : Cascade members (fun _ => False) (fun c2 => some c = some c2)
                [Event.deleteCounter c] s2 (s2.deleteCounter c) :=
              cascade_mono (fun _ x => x) hB (cascade_deleteCounter members s2 c)
            exact ⟨_, cascade_trans hAD hE⟩
      · simp only [h1, if_false, Option.some.injEq] at h
        subst h
        exact ⟨_, hA⟩

theorem releaseWith_live {members : Nat → List Nat}
    {kill : Store → List Nat → Option Store} {s s1 : Store} {this : Nat}
    (h : Nested.releaseWith members kill s this = some s1) : ∃ t, s.handle this = some t := by
  unfold Nested.releaseWith at h
  cases hi : s.handle this with
  | none => simp [hi] at h
  | some t => exact ⟨t, rfl⟩

theorem destroyAll_cascade (members : Nat → List Nat) (fuel : Nat) :
    ∀ (s : Store) (l : List Nat) (s1 : Store),
      Nested.destroyAll members fuel s l = some s1 →
      ∃ evs, Cascade members (fun j => j ∈ l) (fun _ => False) evs s s1 := by
  induction fuel with
  | zero =>
    intro s l s1 h
    cases l with
    | nil =>
      simp only [Nested.destroyAll, Option.some.injEq] at h
      subst h
      exact ⟨[], cascade_refl _ _ _ _⟩
    | cons i rest => simp [Nested.destroyAll] at h
  | succ fuel ih =>
    intro s l s1 h
    cases l with
    | nil =>
      simp only [Nested.destroyAll, Option.some.injEq] at h
      subst h
      exact ⟨[], cascade_refl _ _ _ _⟩
    | cons i rest =>
      simp only [Nested.destroyAll] at h
      cases hr : Nested.releaseWith members (Nested.destroyAll members fuel) s i with
      | none => simp [hr] at h
      | some sa =>
        simp only [hr] at h
        obtain ⟨t, hi⟩ := releaseWith_live hr
        obtain ⟨e1, h1⟩ := releaseWith_cascade ih hi hr
        have h2 := cascade_kill members sa i
        obtain ⟨e3, h3⟩ := ih _ rest s1 h
        have hL1 : ∀ j, False → j = i ∨ j ∈ rest := fun _ x => False.elim x
        have hL2 : ∀ j, j = i → j = i ∨ j ∈ rest := fun _ x => Or.inl x
        have hL3 : ∀ j, j ∈ rest → j = i ∨ j ∈ rest := fun _ x => Or.inr x
        have hB0 : ∀ c, False → t.ref_count_ = some c := fun _ x => False.elim x
        have hall := cascade_trans
          (cascade_trans (cascade_mono hL1 (fun _ x => x) h1) (cascade_mono hL2 hB0 h2))
          (cascade_mono hL3 hB0 h3)
        have hil : i < sa.handles.length := by
          rw [h1.len]
          exact handle_lt hi
        have hdead : s1.handle i = none := by
          have hb : (Store.mk (sa.handles.set i none) sa.counters sa.trace).handle i
              = none := by
            rw [handle_mk, join_getElem?_set _ _ _ _ hil, if_pos rfl]
          rcases h3.fade i with h4 | h4
          · exact h4.trans hb
          · exact h4
        refine ⟨_, hall.len, hall.tr, hall.fade, ?_, ?_⟩
        · intro j x hj hn
          rcases hall.gone j x hj hn with h4 | h4
          · left
            rcases h4 with h5 | h5
            · rw [h5]
              exact List.mem_cons_self _ _
            · exact List.mem_cons_of_mem _ h5
          · exact Or.inr h4
        · intro c _ hun
          exact hall.keep c (hun i t hi hdead) hun

theorem release_cascade {members : Nat → List Nat} {s s1 : Store} {this : Nat}
    {t : SharedPtr} (hi : s.handle this = some t)
    (h : Nested.release members s this = some s1) :
    ∃ evs, Cascade members (fun _ => False) (fun c => t.ref_count_ = some c) evs s s1 :=
  releaseWith_cascade (destroyAll_cascade members s.handles.length) hi h

theorem fetch_add_eq {s s1 : Store} {c : Nat} (h : s.fetch_add c = some s1) :
    ∃ v, s1 = ⟨s.handles, s.counters.set c (some v), s.trace⟩ := by
  unfold Store.fetch_add at h
  cases hn : s.counter c with
  | none => simp [hn] at h
  | some n =>
    simp only [hn, Option.some.injEq] at h
    exact ⟨_, h.symm⟩

theorem frame_finish {members : Nat → List Nat} {evs : List Event} {s sr : Store} {i : Nat}
    {t : SharedPtr}
    (hc : Cascade members (fun _ => False) (fun c => t.ref_count_ = some c) evs s sr)
    (hi : s.handle i = some t) (e : Option SharedPtr) (cs : List (Option Nat))
    (hlive : e = none ∨ sr.handle i ≠ none)
    (hcs : ∀ c, (∀ h, e = some h → h.ref_count_ ≠ some c) →
      (cs[c]?).join = sr.counter c) :
    (Store.mk (sr.handles.set i e) cs sr.trace).trace = s.trace ++ evs ∧
    (∀ j h, j ≠ i → s.handle j = some h →
      (Store.mk (sr.handles.set i e) cs sr.trace).handle j = some h ∨
      ((Store.mk (sr.handles.set i e) cs sr.trace).handle j = none ∧
        ∃ p, j ∈ members p ∧ Event.deletePointee p ∈ evs)) ∧
    (∀ c, (∀ h, s.handle i = some h → h.ref_count_ ≠ some c) →
      (∀ h, (Store.mk (sr.handles.set i e) cs sr.trace).handle i = some h →
        h.ref_count_ ≠ some c) →
      (∀ j h, s.handle j = some h →
        (Store.mk (sr.handles.set i e) cs sr.trace).handle j = none →
        h.ref_count_ ≠ some c) →
      (Store.mk (sr.handles.set i e) cs sr.trace).counter c = s.counter c ∧
      Event.deleteCounter c ∉ evs) := by
  have hil : i < sr.handles.length := by
    rw [hc.len]
    exact handle_lt hi
  have hself : (Store.mk (sr.handles.set i e) cs sr.trace).handle i = e := by
    rw [handle_mk, join_getElem?_set _ _ _ _ hil, if_pos rfl]
  have hother : ∀ j, j ≠ i →
      (Store.mk (sr.handles.set i e) cs sr.trace).handle j = sr.handle j := by
    intro j hj
    rw [handle_set_ne _ _ _ _ _ _ hj]
    rfl
  refine ⟨hc.tr, ?_, ?_⟩
  · intro j h hj hjs
    rw [hother j hj]
    rcases hc.fade j with h3 | h3
    · exact Or.inl (h3.trans hjs)
    · rcases hc.gone j h hjs h3 with h4 | h4
      · exact False.elim h4
      · exact Or.inr ⟨h3, h4⟩
  · intro c hpre hpost hun
    have hB : ¬ t.ref_count_ = some c := hpre t hi
    have hun2 : ∀ j h, s.handle j = some h → sr.handle j = none →
        h.ref_count_ ≠ some c := by
      intro j h hj hn
      apply hun j h hj
      by_cases hji : j = i
      · subst hji
        rw [hself]
        rcases hlive with h5 | h5
        · exact h5
        · exact absurd hn h5
      · rw [hother j hji]
        exact hn
    obtain ⟨k1, n1⟩ := hc.keep c hB hun2
    refine ⟨?_, n1⟩
    rw [counter_mk, hcs c (fun h he => hpost h (hself.trans he)), k1]

/-- C20 amended, frame.  A successful operation on the handle `i` (copy construction from
`i`, assignment to `i`, `reset()`, `reset(P)`, destruction) executes the deletes `evs` and
leaves the members of every other live handle unchanged, unless that handle is a data
member of a pointee deleted by the operation and is destroyed with it; it leaves unchanged
the counter of every control block that neither `i` (before or after) nor a handle
destroyed by the operation referred to, and executes no `delete` on such a block; and it
leaves the members of the handle copied from unchanged.  The members `use_count()`,
`operator*` and `operator->` are functions of the store that return no store. -/
theorem frame (members : Nat → List Nat) (s s1 : Store) (op : Op) (i : Nat)
    (hstep : Nested.step members s op = some s1) (hsub : subject op = some i) :
    ∃ evs, s1.trace = s.trace ++ evs ∧
      (∀ j h, j ≠ i → s.handle j = some h →
        s1.handle j = some h ∨
        (s1.handle j = none ∧ ∃ p, j ∈ members p ∧ Event.deletePointee p ∈ evs)) ∧
      (∀ c, (∀ h, s.handle i = some h → h.ref_count_ ≠ some c) →
        (∀ h, s1.handle i = some h → h.ref_count_ ≠ some c) →
        (∀ j h, s.handle j = some h → s1.handle j = none → h.ref_count_ ≠ some c) →
        s1.counter c = s.counter c ∧ Event.deleteCounter c ∉ evs) ∧
      (∀ src, source op = some src → s1.handle src = s.handle src) := by
  have hid : ∃ evs, s.trace = s.trace ++ evs ∧
      (∀ j h, j ≠ i → s.handle j = some h →
        s.handle j = some h ∨
        (s.handle j = none ∧ ∃ p, j ∈ members p ∧ Event.deletePointee p ∈ evs)) ∧
      (∀ c, (∀ h, s.handle i = some h → h.ref_count_ ≠ some c) →
        (∀ h, s.handle i = some h → h.ref_count_ ≠ some c) →
        (∀ j h, s.handle j = some h → s.handle j = none → h.ref_count_ ≠ some c) →
        s.counter c = s.counter c ∧ Event.deleteCounter c ∉ evs) :=
    ⟨[], by simp, fun j h _ hj => Or.inl hj, fun c _ _ _ => ⟨rfl, by simp⟩⟩
  cases op with
  | construct ptr => simp [subject] at hsub
  | copyConstruct other =>
    simp only [subject, Option.some.injEq] at hsub
    subst hsub
    simp only [Nested.step, SharedPtr.copyConstruct] at hstep
    rcases Option.eq_none_or_eq_some (s.handle other) with ho | ⟨o, ho⟩
    · simp [ho] at hstep
    · simp only [ho] at hstep
      have hsrc : ∀ cs tr, (Store.mk (s.handles ++ [some o]) cs tr).handle other
          = s.handle other := by
        intro cs tr
        rw [handle_push_of_some ho, ho]
      rcases Option.eq_none_or_eq_some o.ref_count_ with hc | ⟨c0, hc⟩
      · simp only [hc, Option.some.injEq] at hstep
        subst hstep
        refine ⟨[], by simp [Store.pushHandle], ?_, ?_, ?_⟩
        · intro j h _ hj
          exact Or.inl (handle_push_of_some hj _ _ _)
        · intro c _ _ _
          exact ⟨rfl, by simp⟩
        · intro src hs
          simp only [source, Option.some.injEq] at hs
          subst hs
          rw [← hc]
          exact hsrc _ _
      · simp only [hc] at hstep
        obtain ⟨v, hv⟩ := fetch_add_eq hstep
        subst hv
        refine ⟨[], by simp [Store.pushHandle], ?_, ?_, ?_⟩
        · intro j h _ hj
          exact Or.inl (handle_push_of_some hj _ _ _)
        · intro c hpre _ _
          have hne : c ≠ c0 := by
            intro e
            apply hpre o ho
            rw [e, hc]
          exact ⟨counter_set_ne _ _ _ _ _ _ hne, by simp⟩
        · intro src hs
          simp only [source, Option.some.injEq] at hs
          subst hs
          rw [← hc]
          exact hsrc _ _
  | assign this other =>
    simp only [subject, Option.some.injEq] at hsub
    subst hsub
    simp only [Nested.step, Nested.assign] at hstep
    rcases Option.eq_none_or_eq_some (s.handle this) with ht | ⟨t, ht⟩
    · simp [ht] at hstep
    rcases Option.eq_none_or_eq_some (s.handle other) with ho | ⟨o0, ho⟩
    · simp [ht, ho] at hstep
    simp only [ht, ho] at hstep
    by_cases hne : this = other
    · simp only [hne, ne_eq, not_true_eq_false, if_false, Option.some.injEq] at hstep
      subst hstep
      obtain ⟨evs, h1, h2, h3⟩ := hid
      exact ⟨evs, h1, h2, h3, fun _ _ => rfl⟩
    simp only [ne_eq, hne, not_false_eq_true, if_true] at hstep
    rcases Option.eq_none_or_eq_some (Nested.release members s this) with hr | ⟨sr, hr⟩
    · simp [hr] at hstep
    simp only [hr] at hstep
    obtain ⟨evs, hc⟩ := release_cascade ht hr
    rcases Option.eq_none_or_eq_some (sr.handle this) with ht2 | ⟨t2, ht2⟩
    · simp [ht2] at hstep
    rcases Option.eq_none_or_eq_some (sr.handle other) with ho2 | ⟨o, ho2⟩
    · simp [ht2, ho2] at hstep
    simp only [ht2, ho2] at hstep
    have hlive : some o = none ∨ sr.handle this ≠ none := by
      right
      rw [ht2]
      simp
    have hne2 : other ≠ this := fun e => hne e.symm
    have hsrc : ∀ cs, (Store.mk (sr.handles.set this (some o)) cs
        sr.trace).handle other = s.handle other := by
      intro cs
      rw [handle_set_ne _ _ _ _ _ _ hne2]
      rcases hc.fade other with h3 | h3
      · exact h3
      · rw [ho2] at h3
        cases h3
    rcases Option.eq_none_or_eq_some o.ref_count_ with hoc | ⟨c0, hoc⟩
    · simp only [hoc, Option.some.injEq, Store.setHandle] at hstep
      rw [← hoc] at hstep
      subst hstep
      have hf := frame_finish hc ht (some o) sr.counters hlive (fun _ _ => rfl)
      refine ⟨evs, hf.1, hf.2.1, hf.2.2, ?_⟩
      intro src hs
      simp only [source, Option.some.injEq] at hs
      subst hs
      exact hsrc _
    · simp only [hoc, Store.setHandle] at hstep
      rw [← hoc] at hstep
      obtain ⟨v, hv⟩ := fetch_add_eq hstep
      subst hv
      have hf := frame_finish hc ht (some o) (sr.counters.set c0 (some v)) hlive
        (fun c hh => by
          have hne3 : c ≠ c0 := by
            intro e
            apply hh _ rfl
            rw [e, hoc]
          rw [List.getElem?_set_ne (fun e => hne3 e.symm)]
          rfl)
      refine ⟨evs, hf.1, hf.2.1, hf.2.2, ?_⟩
      intro src hs
      simp only [source, Option.some.injEq] at hs
      subst hs
      exact hsrc _
  | reset this =>
    simp only [subject, Option.some.injEq] at hsub
    subst hsub
    simp only [Nested.step, Nested.reset] at hstep
    rcases Option.eq_none_or_eq_some (Nested.release members s this) with hr | ⟨sr, hr⟩
    · simp [hr] at hstep
    simp only [hr] at hstep
    obtain ⟨t, ht⟩ := releaseWith_live hr
    obtain ⟨evs, hc⟩ := release_cascade ht hr
    rcases Option.eq_none_or_eq_some (sr.handle this) with ht2 | ⟨t2, ht2⟩
    · simp [ht2] at hstep
    simp only [ht2, Option.some.injEq, Store.setHandle] at hstep
    subst hstep
    have hf := frame_finish hc ht (some ⟨none, none⟩) sr.counters
      (Or.inr (by rw [ht2]; simp)) (fun _ _ => rfl)
    exact ⟨evs, hf.1, hf.2.1, hf.2.2, fun src hs => by simp [source] at hs⟩
  | resetPtr this ptr =>
    simp only [subject, Option.some.injEq] at hsub
    subst hsub
    simp only [Nested.step, Nested.resetPtr] at hstep
    rcases Option.eq_none_or_eq_some (s.handle this) with ht | ⟨t, ht⟩
    · simp [ht] at hstep
    simp only [ht] at hstep
    by_cases hne : ptr = t.ptr_
    · simp only [hne, ne_eq, not_true_eq_false, if_false, Option.some.injEq] at hstep
      subst hstep
      obtain ⟨evs, h1, h2, h3⟩ := hid
      exact ⟨evs, h1, h2, h3, fun src hs => by simp [source] at hs⟩
    simp only [ne_eq, hne, not_false_eq_true, if_true] at hstep
    rcases Option.eq_none_or_eq_some (Nested.release members s this) with hr | ⟨sr, hr⟩
    · simp [hr] at hstep
    simp only [hr] at hstep
    obtain ⟨evs, hc⟩ := release_cascade ht hr
    rcases Option.eq_none_or_eq_some (sr.handle this) with ht2 | ⟨t2, ht2⟩
    · simp [ht2] at hstep
    simp only [ht2] at hstep
    have hlive : ∀ e : Option SharedPtr, e = none ∨ sr.handle this ≠ none := by
      intro e
      right
      rw [ht2]
      simp
    cases ptr with
    | none =>
      simp only [Option.some.injEq, Store.setHandle] at hstep
      subst hstep
      have hf := frame_finish hc ht (some ⟨none, none⟩) sr.counters (hlive _)
        (fun _ _ => rfl)
      exact ⟨evs, hf.1, hf.2.1, hf.2.2, fun src hs => by simp [source] at hs⟩
    | some p =>
      simp only [Option.some.injEq, Store.setHandle, Store.newCounter] at hstep
      subst hstep
      have hf := frame_finish hc ht (some ⟨some p, some sr.counters.length⟩)
        (sr.counters ++ [some (1 % sizeModulus)]) (hlive _)
        (fun c hh => by
          have hne3 : c ≠ sr.counters.length := by
            intro e
            apply hh _ rfl
            rw [e]
          rw [join_getElem?_push, if_neg hne3]
          rfl)
      exact ⟨evs, hf.1, hf.2.1, hf.2.2, fun src hs => by simp [source] at hs⟩
  | destroy this =>
    simp only [subject, Option.some.injEq] at hsub
    subst hsub
    simp only [Nested.step, Nested.destroy] at hstep
    rcases Option.eq_none_or_eq_some (Nested.release members s this) with hr | ⟨sr, hr⟩
    · simp [hr] at hstep
    simp only [hr, Option.some.injEq] at hstep
    subst hstep
    obtain ⟨t, ht⟩ := releaseWith_live hr
    obtain ⟨evs, hc⟩ := release_cascade ht hr
    have hf := frame_finish hc ht none sr.counters (Or.inl rfl) (fun _ _ => rfl)
    exact ⟨evs, hf.1, hf.2.1, hf.2.2, fun src hs => by simp [source] at hs⟩


/-- C20 as stated fails.  Destroying `head`, the sole owner of node 7, runs the destructor
of node 7, which destroys its member handle 0: another live handle is gone, and the control
block 1, which `head` referred to neither before nor after, is freed. -/
theorem frame_counterexample :
    Nested.run Nested.chain Store.empty Nested.buildChain = some Nested.listStore ∧
    Nested.step Nested.chain Nested.listStore (Op.destroy 1) = some Nested.afterDestroy ∧
    subject (Op.destroy 1) = some 1 ∧
    Nested.listStore.handle 1 = some ⟨some 7, some 0⟩ ∧
    Nested.listStore.handle 0 = some ⟨some 8, some 1⟩ ∧
    Nested.afterDestroy.handle 0 = none ∧
    Nested.listStore.counter 1 = some 1 ∧
    Nested.afterDestroy.counter 1 = none := by
  decide

/-- Witness for C20 amended: the destruction of `head` in the two-node list. -/
theorem frame_witness :
    Nested.step Nested.chain Nested.listStore (Op.destroy 1) = some Nested.afterDestroy ∧
    ∃ evs, Nested.afterDestroy.trace = Nested.listStore.trace ++ evs ∧
      (∀ j h, j ≠ 1 → Nested.listStore.handle j = some h →
        Nested.afterDestroy.handle j = some h ∨
        (Nested.afterDestroy.handle j = none ∧
          ∃ p, j ∈ Nested.chain p ∧ Event.deletePointee p ∈ evs)) ∧
      (∀ c, (∀ h, Nested.listStore.handle 1 = some h → h.ref_count_ ≠ some c) →
        (∀ h, Nested.afterDestroy.handle 1 = some h → h.ref_count_ ≠ some c) →
        (∀ j h, Nested.listStore.handle j = some h → Nested.afterDestroy.handle j = none →
          h.ref_count_ ≠ some c) →
        Nested.afterDestroy.counter c = Nested.listStore.counter c ∧
        Event.deleteCounter c ∉ evs) ∧
      (∀ src, source (Op.destroy 1) = some src →
        Nested.afterDestroy.handle src = Nested.listStore.handle src) :=
  ⟨by decide,
    frame Nested.chain Nested.listStore Nested.afterDestroy (Op.destroy 1) 1 (by decide) rfl⟩

/-! ## Assignment from a handle owned through the target -/

/-- C5, code defect.  `head = head->next` on the two-node list: both handles are live and
distinct, `release()` of `head` deletes node 7 and with it the source handle 0, and the
members of the source, which `operator=` reads next, are those of a destroyed handle: the
assignment is undefined, where the claim has `head` take over node 8. -/
theorem assign_reads_destroyed_source :
    Nested.run Nested.chain Store.empty Nested.buildChain = some Nested.listStore ∧
    Nested.listStore.handle 1 = some ⟨some 7, some 0⟩ ∧
    Nested.listStore.handle 0 = some ⟨some 8, some 1⟩ ∧
    Nested.release Nested.chain Nested.listStore 1 = some Nested.afterRelease ∧
    Nested.afterRelease.handle 0 = none ∧
    Nested.assign Nested.chain Nested.listStore 1 0 = none := by
  decide

/-- C12, code defect.  Every raw pointer of the run is fresh, yet `head = head->next`
deletes node 8 and frees its control block inside `release()` and then copies the members
`(8, block 1)` of the destroyed source: a handle holding them cannot be dereferenced, and
the run is undefined. -/
theorem assignment_frees_adopted_pointee :
    Nested.freshRun Nested.chain Store.empty (Nested.buildChain ++ [Op.assign 1 0]) = true ∧
    Nested.run Nested.chain Store.empty Nested.buildChain = some Nested.listStore ∧
    Nested.listStore.handle 0 = some ⟨some 8, some 1⟩ ∧
    Nested.release Nested.chain Nested.listStore 1 = some Nested.afterRelease ∧
    Event.deletePointee 8 ∈ Nested.afterRelease.trace ∧
    Nested.afterRelease.counter 1 = none ∧
    SharedPtr.deref (Nested.afterRelease.setHandle 1 ⟨some 8, some 1⟩) 1 = none ∧
    Nested.run Nested.chain Store.empty (Nested.buildChain ++ [Op.assign 1 0]) = none := by
  decide

/-- C16, code defect.  In `head = head->next` the counter of control block 1 reaches 0 and
the block is deleted inside `release()`; `operator=` then copies `ref_count_ = block 1`
from the destroyed source and calls `fetch_add` on it, an access to a freed control
block. -/
theorem assignment_increments_freed_counter :
    Nested.listStore.counter 1 = some 1 ∧
    Nested.listStore.handle 0 = some ⟨some 8, some 1⟩ ∧
    Nested.release Nested.chain Nested.listStore 1 = some Nested.afterRelease ∧
    Event.deleteCounter 1 ∈ Nested.afterRelease.trace ∧
    Nested.afterRelease.counter 1 = none ∧
    Store.fetch_add (Nested.afterRelease.setHandle 1 ⟨some 8, some 1⟩) 1 = none ∧
    Nested.step Nested.chain Nested.listStore (Op.assign 1 0) = none := by
  decide


/-! ## The bound on nested destructions does not change a result -/

theorem deleteWith_mono {members : Nat → List Nat}
    {kill kill2 : Store → List Nat → Option Store}
    (hk : ∀ s l r, kill s l = some r → kill2 s l = some r) {s r : Store} {p : Option Nat}
    (h : Nested.deleteWith members kill s p = some r) :
    Nested.deleteWith members kill2 s p = some r := by
  unfold Nested.deleteWith at h ⊢
  cases p with
  | none => exact h
  | some a =>
    simp only at h ⊢
    rcases Option.eq_none_or_eq_some (kill s (members a)) with hn | ⟨sk, hs⟩
    · simp [hn] at h
    · rw [hs] at h
      rw [hk s (members a) sk hs]
      exact h

theorem releaseWith_mono {members : Nat → List Nat}
    {kill kill2 : Store → List Nat → Option Store}
    (hk : ∀ s l r, kill s l = some r → kill2 s l = some r) {s r : Store} {this : Nat}
    (h : Nested.releaseWith members kill s this = some r) :
    Nested.releaseWith members kill2 s this = some r := by
  unfold Nested.releaseWith at h ⊢
  rcases Option.eq_none_or_eq_some (s.handle this) with hi | ⟨t, hi⟩
  · simp [hi] at h
  rw [hi] at h ⊢
  simp only at h ⊢
  rcases Option.eq_none_or_eq_some t.ref_count_ with hc | ⟨c, hc⟩
  · rw [hc] at h ⊢
    exact h
  rw [hc] at h ⊢
  simp only at h ⊢
  rcases Option.eq_none_or_eq_some (s.fetch_sub c) with hf | ⟨⟨pre, sf⟩, hf⟩
  · simp [hf] at h
  rw [hf] at h ⊢
  simp only at h ⊢
  by_cases h1 : pre = 1
  · simp only [h1, if_true] at h ⊢
    rcases Option.eq_none_or_eq_some (Nested.deleteWith members kill sf t.ptr_)
      with hd | ⟨sd, hd⟩
    · simp [hd] at h
    · rw [hd] at h
      rw [deleteWith_mono hk hd]
      exact h
  · simp only [h1, if_false] at h ⊢
    exact h

/-- A result of the nested destructions does not depend on the bound: with a larger bound
the same store is returned. -/
theorem destroyAll_mono (members : Nat → List Nat) (fuel : Nat) :
    ∀ (s : Store) (l : List Nat) (r : Store),
      Nested.destroyAll members fuel s l = some r →
      Nested.destroyAll members (fuel + 1) s l = some r := by
  induction fuel with
  | zero =>
    intro s l r h
    cases l with
    | nil =>
      rw [destroyAll_nil] at h ⊢
      exact h
    | cons i rest => simp [Nested.destroyAll] at h
  | succ fuel ih =>
    intro s l r h
    cases l with
    | nil =>
      rw [destroyAll_nil] at h ⊢
      exact h
    | cons i rest =>
      simp only [Nested.destroyAll] at h ⊢
      rcases Option.eq_none_or_eq_some
        (Nested.releaseWith members (Nested.destroyAll members fuel) s i) with hr | ⟨sa, hr⟩
      · simp [hr] at h
      · rw [hr] at h
        simp only at h
        rw [releaseWith_mono ih hr]
        exact ih _ rest r h

end Cpp11Ninja
